import Mathlib

/-!
Verification of the template-resolution, value-scrubbing, context-building and
object-inspection logic of the inventree-template-pro repository
(`inventree_part_templates` / `inventree_template_pro` Python packages).

The Python code is shallowly embedded: dictionaries become association lists,
Python truthiness becomes an explicit `truthy` function, `None` becomes a
dedicated value, exceptions become `Except`, and the object heap of the
inspector becomes an explicit map from object ids to object data.
-/

namespace TemplatePro

/-! ## A model of the Python values stored in part/category `metadata`

`metadata` is a framework-managed JSON blob: the plugin reads it with chains of
`dict.get` guarded by truthiness checks.  We model just the shapes the plugin
distinguishes: `None`, strings, and dictionaries keyed by strings.  Calling
`.get` on a value that is not a dictionary raises `AttributeError` in Python;
the model returns `pnone` instead, and every theorem that depends on metadata
shape carries a well-formedness hypothesis (`metaWF`) restricting it to the
dict-or-absent layouts the plugin itself writes. -/

inductive PyVal : Type where
  | pnone : PyVal
  | pstr (s : String) : PyVal
  | pdict (entries : List (String × PyVal)) : PyVal


/-- Association-list lookup modelling Python `dict.get(key)` (first match;
Python dict keys are unique, so lists with duplicate keys never arise from
real metadata). Missing keys give `pnone`, i.e. Python `None`. -/
def getEntries : List (String × PyVal) → String → PyVal
  | [], _ => .pnone
  | (k, v) :: rest, key => if k = key then v else getEntries rest key

/-- Python `value.get(key)`: dictionary lookup; on a non-dictionary the model
returns `pnone` (Python would raise `AttributeError`; see `metaWF`). -/
def PyVal.get : PyVal → String → PyVal
  | .pdict entries, key => getEntries entries key
  | _, _ => .pnone

/-- Python truthiness for the modelled values: `None` is falsy, a string is
truthy iff non-empty, a dict is truthy iff non-empty. -/
def PyVal.truthy : PyVal → Bool
  | .pnone => false
  | .pstr s => !(s == "")
  | .pdict entries => !entries.isEmpty

/-! ## Constants (src/inventree_part_templates/constants.py) -/

def METADATA_PARENT : String := "part_template_plugin"
def METADATA_TEMPLATE_KEY : String := "templates"
def CONTEXT_KEY : String := "part_templates"
def MAX_TEMPLATES : Nat := 5

/-! ## Parts and the category chain

A `PartCategory` reference in the Python code is either `None` or a category
with `metadata` and a `parent` reference.  `PartCategoryRef` inlines that
optionality so the parent-pointer walk is structural; MPTT category trees are
finite and acyclic, which the inductive type captures. -/

inductive PartCategoryRef : Type where
  | null : PartCategoryRef
  | node (metadata : PyVal) (parent : PartCategoryRef) : PartCategoryRef


structure Part where
  metadata : PyVal
  category : PartCategoryRef


/-- The truthiness condition guarding both part-level and category-level
template lookup in the source:
`metadata and metadata.get(METADATA_PARENT) and
 metadata[METADATA_PARENT].get(METADATA_TEMPLATE_KEY) and
 metadata[METADATA_PARENT][METADATA_TEMPLATE_KEY].get(key)`. -/
def metaHasTemplate (md : PyVal) (key : String) : Bool :=
  md.truthy && (md.get METADATA_PARENT).truthy
    && ((md.get METADATA_PARENT).get METADATA_TEMPLATE_KEY).truthy
    && (((md.get METADATA_PARENT).get METADATA_TEMPLATE_KEY).get key).truthy

/-- The value `metadata[METADATA_PARENT][METADATA_TEMPLATE_KEY][key]` the
source returns when `metaHasTemplate` holds. -/
def metaTemplate (md : PyVal) (key : String) : PyVal :=
  ((md.get METADATA_PARENT).get METADATA_TEMPLATE_KEY).get key

/-- `PropertyContext.find_category_template` (property_context.py:172-197):
`if not category: return default_template`; if the category's metadata passes
the truthiness chain for `key`, return the stored value; else recurse on
`category.parent`.  Returns `PyVal` because Python returns the stored object
itself (the default, a `str`, is injected with `pstr`). -/
def find_category_template : PartCategoryRef → String → String → PyVal
  | .null, _, default_template => .pstr default_template
  | .node md parent, key, default_template =>
    if metaHasTemplate md key then metaTemplate md key
    else find_category_template parent key default_template

/-- `PropertyContext._find_template` (property_context.py:148-170):
`if not self._part: return default_template`; part-level metadata lookup
first, else the category walk. -/
def _find_template (part : Option Part) (key default_template : String) : PyVal :=
  match part with
  | Option.none => .pstr default_template
  | Option.some p =>
    if metaHasTemplate p.metadata key then metaTemplate p.metadata key
    else find_category_template p.category key default_template

/-! ## Legacy resolution (part_templates_plugin.py:533-576)

`PartTemplatesPlugin._find_template` / `_find_category_template` are embedded
separately, from their own source lines and their own class-level constants
(part_templates_plugin.py:134-136), to compare with the newer
`PropertyContext` pair (claim C9).  The legacy `_find_template` takes the part
directly (no `None` guard). -/

/-- `PartTemplatesPlugin.METADATA_PARENT` (class attribute). -/
def PLUGIN_METADATA_PARENT : String := "part_template_plugin"

/-- `PartTemplatesPlugin.METADATA_TEMPLATE_KEY` (class attribute). -/
def PLUGIN_METADATA_TEMPLATE_KEY : String := "templates"

/-- The legacy truthiness chain of `PartTemplatesPlugin._find_template` /
`_find_category_template`. -/
def plugin_metaHasTemplate (md : PyVal) (key : String) : Bool :=
  md.truthy && (md.get PLUGIN_METADATA_PARENT).truthy
    && ((md.get PLUGIN_METADATA_PARENT).get PLUGIN_METADATA_TEMPLATE_KEY).truthy
    && (((md.get PLUGIN_METADATA_PARENT).get PLUGIN_METADATA_TEMPLATE_KEY).get key).truthy

/-- The value the legacy resolution returns when its chain accepts. -/
def plugin_metaTemplate (md : PyVal) (key : String) : PyVal :=
  ((md.get PLUGIN_METADATA_PARENT).get PLUGIN_METADATA_TEMPLATE_KEY).get key

def plugin_find_category_template : PartCategoryRef → String → String → PyVal
  | .null, _, default_template => .pstr default_template
  | .node md parent, key, default_template =>
    if plugin_metaHasTemplate md key then plugin_metaTemplate md key
    else plugin_find_category_template parent key default_template

def plugin_find_template (part : Part) (key default_template : String) : PyVal :=
  if plugin_metaHasTemplate part.metadata key then plugin_metaTemplate part.metadata key
  else plugin_find_category_template part.category key default_template

/-! ## Specification-side resolution (from the words of claim C1)

"the first match in this order: the template stored for k in p's own
metadata; otherwise the template for k of the nearest ancestor category
...; otherwise the default template d." -/

/-- The template stored for `key` in a metadata blob, read off the storage
layout: the entry under `METADATA_PARENT` / `METADATA_TEMPLATE_KEY` / `key`,
when it is a string. -/
def storedTemplate (md : PyVal) (key : String) : Option String :=
  match metaTemplate md key with
  | .pstr s => Option.some s
  | _ => Option.none

/-- Spec-side first-match walk over the ancestor chain. -/
def resolve_spec_cat : PartCategoryRef → String → String → String
  | .null, _, d => d
  | .node md parent, key, d =>
    match storedTemplate md key with
    | Option.some s => s
    | Option.none => resolve_spec_cat parent key d

/-- Spec-side resolution for a part: own metadata first, then the ancestor
chain, then the default. -/
def resolve_spec (p : Part) (key d : String) : String :=
  match storedTemplate p.metadata key with
  | Option.some s => s
  | Option.none => resolve_spec_cat p.category key d

/-! ## Well-formedness of metadata stores -/

/-- The value is a dictionary or absent (`None`): the only shapes the plugin
writes at each level of the metadata nesting, and the shapes on which the
Python truthiness chain runs without raising. -/
def dictOrNone : PyVal → Bool
  | .pnone => true
  | .pdict _ => true
  | _ => false

/-- The metadata blob has the dict-or-absent nesting at each level read by the
resolution code. -/
def metaWF (md : PyVal) : Bool :=
  dictOrNone md && dictOrNone (md.get METADATA_PARENT)
    && dictOrNone ((md.get METADATA_PARENT).get METADATA_TEMPLATE_KEY)

/-- Claim C1's precondition at one metadata blob: whatever is stored for `key`
(if anything) is a non-empty string. -/
def storedOK (md : PyVal) (key : String) : Bool :=
  match metaTemplate md key with
  | .pnone => true
  | .pstr s => !(s == "")
  | .pdict _ => false

/-- Well-formedness plus claim C1's precondition along a whole ancestor chain. -/
def chainWF : PartCategoryRef → String → Bool
  | .null, _ => true
  | .node md parent, key => metaWF md && storedOK md key && chainWF parent key

/-! ## Concrete metadata states used by witnesses and counterexamples -/

/-- A category storing template `"CAT"` for key `"mykey"`, with no parent. -/
def cat_c1 : PartCategoryRef :=
  .node (.pdict [(METADATA_PARENT,
    .pdict [(METADATA_TEMPLATE_KEY, .pdict [("mykey", .pstr "CAT")])])]) .null

/-- A part with empty own metadata whose category is `cat_c1`. -/
def part_c1 : Part := ⟨.pdict [], cat_c1⟩

/-- A part storing the EMPTY string as its template for key `"k"`. -/
def part_c2 : Part :=
  ⟨.pdict [(METADATA_PARENT,
    .pdict [(METADATA_TEMPLATE_KEY, .pdict [("k", .pstr "")])])], .null⟩

/-- A part storing the non-empty template `"PT"` for key `"k"`. -/
def part_c2w : Part :=
  ⟨.pdict [(METADATA_PARENT,
    .pdict [(METADATA_TEMPLATE_KEY, .pdict [("k", .pstr "PT")])])], .null⟩

/-! ## Value scrubbing (`scrub`)

`scrub` appears twice with identical rule-processing logic:
src/inventree_template_pro/templatetags/value_filters.py:58-115 and
src/inventree_part_templates/templatetags/part_templates.py:131-198.  One
embedding models both.  `re.sub` is the Python stdlib regex engine, outside
this repository: it is a parameter `reSub : pattern → replacement → input →
output` (total: the `re.error` handler for invalid patterns is therefore not
reachable in the model).  `load_filters()` performs file/cache IO; the loaded
`Config` is a parameter.  Translated error-marker strings are written with the
`.format(...)` interpolation already applied, as the caller receives them. -/

/-- `pattern → replacement → input → output`, the shape of `re.sub`. -/
def SubFn : Type := String → String → String → String

/-- `FilterRule = Dict[str, str]` (may lack either key). -/
def FilterRule : Type := List (String × String)

/-- `FilterRules = List[FilterRule]`. -/
def FilterRules : Type := List FilterRule

/-- `Filters = Dict[str, FilterRules]`. -/
def Filters : Type := List (String × FilterRules)

/-- `Config = Dict[str, Filters]`. -/
def Config : Type := List (String × Filters)

/-- Generic Python `dict.get(key)` as an association-list lookup. -/
def dictGet {α : Type} : List (String × α) → String → Option α
  | [], _ => Option.none
  | (k, v) :: rest, key => if k = key then Option.some v else dictGet rest key

/-- `'["pattern" not found in "{name}" in "parts_templates.yaml"]'` after
interpolation. -/
def pattern_missing_msg (section_name : String) : String :=
  "[\"pattern\" not found in \"" ++ section_name ++ "\" in \"parts_templates.yaml\"]"

/-- `'["replacement" not found in "{name}" in "parts_templates.yaml"]'` after
interpolation. -/
def replacement_missing_msg (section_name : String) : String :=
  "[\"replacement\" not found in \"" ++ section_name ++ "\" in \"parts_templates.yaml\"]"

/-- One `for rule in rules` loop of `scrub`: fetch `pattern` and
`replacement`, returning the error marker (`.error`, an early `return` in
Python) when either is missing, else substitute and continue. -/
def run_rules (reSub : SubFn) (section_name : String) :
    FilterRules → String → Except String String
  | [], s => .ok s
  | rule :: rest, s =>
    match dictGet rule "pattern" with
    | Option.none => .error (pattern_missing_msg section_name)
    | Option.some pat =>
      match dictGet rule "replacement" with
      | Option.none => .error (replacement_missing_msg section_name)
      | Option.some repl => run_rules reSub section_name rest (reSub pat repl s)

/-- The `scrub` template filter: empty name check, `filters` lookup, the
named rule list (absent: input returned unchanged), then the `_GLOBAL` rule
list when present. -/
def scrub (reSub : SubFn) (config : Config) (scrub_string name : String) : String :=
  if name == "" then "[scrub missing required :name]"
  else
    match dictGet config "filters" with
    | Option.none => "[\"filters\" not found in \"parts_templates.yaml\"]"
    | Option.some filters =>
      match dictGet filters name with
      | Option.none => scrub_string
      | Option.some rules =>
        match run_rules reSub name rules scrub_string with
        | .error e => e
        | .ok s1 =>
          match dictGet filters "_GLOBAL" with
          | Option.none => s1
          | Option.some global_rules =>
            match run_rules reSub "_GLOBAL" global_rules s1 with
            | .error e => e
            | .ok s2 => s2

/-- The pattern/replacement pair of a rule, when both keys are present. -/
def rulePair (rule : FilterRule) : Option (String × String) :=
  match dictGet rule "pattern", dictGet rule "replacement" with
  | Option.some p, Option.some r => Option.some (p, r)
  | _, _ => Option.none

/-- The pattern/replacement pairs of a rule list. -/
def rulePairs (rules : FilterRules) : List (String × String) :=
  rules.filterMap rulePair

/-- A rule carries both a `pattern` and a `replacement` key. -/
def ruleWF (rule : FilterRule) : Bool :=
  (dictGet rule "pattern").isSome && (dictGet rule "replacement").isSome

/-- Every rule of the list is well-formed. -/
def rulesWF (rules : FilterRules) : Bool := rules.all ruleWF

/-- The `_GLOBAL` rule list of a filters mapping, empty when absent. -/
def globalRules (fl : Filters) : FilterRules := (dictGet fl "_GLOBAL").getD []

/-- Claim C3's specification: the left-to-right fold of regex substitution
over the input, named rules first, then the `_GLOBAL` rules. -/
def scrub_spec (reSub : SubFn) (rules global_rules : FilterRules) (s : String) : String :=
  (rulePairs rules ++ rulePairs global_rules).foldl (fun acc pr => reSub pr.1 pr.2 acc) s

/-- `re.sub` stand-in for counterexamples: returns its input unchanged, so
every fold of substitutions is the identity. -/
def subId : SubFn := fun _ _ s => s

/-- `re.sub` stand-in for witnesses: appends pattern and replacement, so the
application order is visible in the output. -/
def subTag : SubFn := fun pat repl s => s ++ "(" ++ pat ++ "/" ++ repl ++ ")"

/-- A config whose `"MPN"` rule list holds one rule missing both keys. -/
def config_c3 : Config := [("filters", [("MPN", [[]])])]

/-- A well-formed config with an `"MPN"` rule list and a `_GLOBAL` rule list. -/
def config_c3w : Config :=
  [("filters",
    [("MPN", [[("pattern", "a"), ("replacement", "b")],
              [("pattern", "c"), ("replacement", "d")]]),
     ("_GLOBAL", [[("pattern", "g"), ("replacement", "h")]])])]

/-- A config with a `_GLOBAL` rule list but no `"NOPE"` (and no `""`) rule
list. -/
def config_c8 : Config :=
  [("filters", [("_GLOBAL", [[("pattern", "g"), ("replacement", "h")]])])]

/-! ## `PropertyContext.get_context` (property_context.py:49-85)

The loop over setting keys `T1..T5` with per-key template resolution and
rendering.  `apply_template` hands the found template to the Django template
engine (outside this repository); rendering is a parameter
`render : PyVal → Except String String` whose `.error` payload stands for the
caught exception text together with the traceback location the code extracts
(`str(e)` and `last_call.filename:last_call.lineno`).  Only the value stored
under `context[CONTEXT_KEY]` is modelled (an insertion-ordered dict as an
association list with in-place update, Python dict-assignment semantics); the
claim concerns the part-present branch, so the part is passed directly. -/

/-- `plugin.get_setting`: setting name to configured string. -/
def PluginSettings : Type := String → String

/-- The Django rendering of a found template: result string or exception. -/
def RenderFn : Type := PyVal → Except String String

/-- Python dict assignment `d[key] = v`: update in place when present, else
append (insertion order preserved). -/
def dictSet : List (String × String) → String → String → List (String × String)
  | [], key, v => [(key, v)]
  | (k, w) :: rest, key, v =>
    if k = key then (k, v) :: rest else (k, w) :: dictSet rest key v

/-- Python `str()` of the found template value, for the error message. -/
def pyValStr : PyVal → String
  | .pnone => "None"
  | .pstr s => s
  | .pdict _ => "\x7b...\x7d"

/-- `'Template error for {key} with "{found_template}": {error-and-location}'`
after interpolation; the exception text and traceback location are the
`.error` payload of the render function. -/
def template_error_msg (key : String) (found : PyVal) (err : String) : String :=
  "Template error for " ++ key ++ " with \"" ++ pyValStr found ++ "\": " ++ err

/-- The `for key_number in range(1, MAX_TEMPLATES + 1)` loop: skip falsy
(empty) keys; on a render exception the whole `CONTEXT_KEY` entry becomes the
single-entry error dict and the loop returns; on success the rendered result
is assigned under the key. -/
def get_context_loop (render : RenderFn) (plugin : PluginSettings) (p : Part) :
    List Nat → List (String × String) → List (String × String)
  | [], acc => acc
  | n :: rest, acc =>
    if plugin ("T" ++ toString n ++ "_KEY") == "" then
      get_context_loop render plugin p rest acc
    else
      match render (_find_template (Option.some p) (plugin ("T" ++ toString n ++ "_KEY"))
          (plugin ("T" ++ toString n ++ "_TEMPLATE"))) with
      | .error e =>
        [("error", template_error_msg (plugin ("T" ++ toString n ++ "_KEY"))
            (_find_template (Option.some p) (plugin ("T" ++ toString n ++ "_KEY"))
              (plugin ("T" ++ toString n ++ "_TEMPLATE"))) e)]
      | .ok result =>
        get_context_loop render plugin p rest
          (dictSet acc (plugin ("T" ++ toString n ++ "_KEY")) result)

/-- `PropertyContext.get_context` for a present part: the final value stored
under `context[CONTEXT_KEY]`. -/
def get_context (render : RenderFn) (plugin : PluginSettings) (p : Part) :
    List (String × String) :=
  get_context_loop render plugin p (List.range' 1 MAX_TEMPLATES) []

/-- The configured context-variable name of slot `n`: setting `Tn_KEY`. -/
def cfgKey (plugin : PluginSettings) (n : Nat) : String :=
  plugin ("T" ++ toString n ++ "_KEY")

/-- The configured default template of slot `n`: setting `Tn_TEMPLATE`. -/
def cfgTemplate (plugin : PluginSettings) (n : Nat) : String :=
  plugin ("T" ++ toString n ++ "_TEMPLATE")

/-- The template resolved for slot `n`. -/
def foundFor (plugin : PluginSettings) (p : Part) (n : Nat) : PyVal :=
  _find_template (Option.some p) (cfgKey plugin n) (cfgTemplate plugin n)

/-- The expected success entries for the slots `ns`: one entry per configured
non-empty key, carrying its rendered string. -/
def successEntriesOver (render : RenderFn) (plugin : PluginSettings) (p : Part)
    (ns : List Nat) : List (String × String) :=
  ns.filterMap (fun n =>
    if cfgKey plugin n == "" then Option.none
    else
      match render (foundFor plugin p n) with
      | .ok r => Option.some (cfgKey plugin n, r)
      | .error _ => Option.none)

/-- The expected success entries over all slots `1..MAX_TEMPLATES`. -/
def successEntries (render : RenderFn) (plugin : PluginSettings) (p : Part) :
    List (String × String) :=
  successEntriesOver render plugin p (List.range' 1 MAX_TEMPLATES)

/-- A part with empty metadata and no category. -/
def part_plain : Part := ⟨.pdict [], .null⟩

/-- Settings that configure the context-variable name `"error"` in slot 1 and
nothing else. -/
def plugin_err : PluginSettings := fun s => if s == "T1_KEY" then "error" else ""

/-- Settings that configure name `"alpha"` with default template `"dt"` in
slot 1 and nothing else. -/
def plugin_w : PluginSettings := fun s =>
  if s == "T1_KEY" then "alpha" else if s == "T1_TEMPLATE" then "dt" else ""

/-- A renderer that always succeeds with `"v"`. -/
def render_ok : RenderFn := fun _ => .ok "v"

/-- A renderer that always succeeds, tagging the rendered template. -/
def render_w : RenderFn := fun v => .ok ("R:" ++ pyValStr v)

/-! ## The object inspector (src/inventree_part_templates/templatetags/inspect.py)

Python objects have identity (`id(obj)`), and graphs may be cyclic, so the
model separates the object graph from the traversal: a `Heap` maps object ids
to object data, and container data holds ids of the member objects.  The
`InspectionManager` recursion becomes a function over the heap with the
`depth` argument as the (strictly decreasing) recursion measure, the
`_processed` dict as an explicit id list threaded through the traversal, and
the `raise ValueError` branch as `Except.error`.

Per-type notes, from `inspect_factory`'s dispatch:
`simple` covers the `WHITELIST_USE_SIMPLE_TYPE` isinstance branch; `proxyObj`
covers the `WHITELIST_USE_SIMPLE_TYPE_BY_NAME` name check (`__proxy__`,
Django lazy-translation objects) — also dispatched to `InspectSimpleType`,
but kept distinct because `been_seen_before`'s skip (inspect.py:784) tests
only the isinstance whitelist, so such objects ARE tracked in `_processed`
and re-encounters of them become `InspectDuplicate` markers; `noneObj` is
Python `None` (also dispatched to `InspectSimpleType`, but distinguished
because `_add_child`'s `none` option tests `value is None`); `methodObj`
covers `inspect.ismethod`/`inspect.isfunction`; `partialApp` covers
`functools.partial` objects.  `InspectClass` attributes carry `skipKind` for
the `inspect.isbuiltin` / `isinstance(value, type)` /
`do_not_call_in_templates` skips and keep their `dir(obj)` names for the
privates filter.  Formatting-only behaviour (prefixes, ids as strings,
`id_prefix_index`) is not modelled; a node records its kind, name, object id,
stored `_depth`, children, and `_total_items` (absent for value-like nodes,
matching `get_total_children`'s `None` default). -/

/-- A Python object id (`id(obj)`). -/
abbrev ObjId := Nat

/-- One attribute found by `dir(obj)` on a class instance. -/
structure ClassAttr where
  name : String
  skipKind : Bool
  ref : ObjId

/-- The data of one Python object, as `inspect_factory` classifies it. -/
inductive ObjData : Type where
  | noneObj : ObjData
  | simple (value : String) : ObjData
  | proxyObj (value : String) : ObjData
  | methodObj (params : List String) : ObjData
  | partialApp (value : String) : ObjData
  | dictObj (entries : List (String × ObjId)) : ObjData
  | setObj (items : List ObjId) : ObjData
  | listObj (items : List ObjId) : ObjData
  | querySetObj (items : List ObjId) : ObjData
  | classObj (attrs : List ClassAttr) : ObjData

/-- The object graph: every id resolves to its object's data. -/
abbrev Heap := ObjId → ObjData

/-- The manager options used by the traversal (`style` is formatting-only).
The `explore` tag defaults are depth=3, lists=5, methods/privates off. -/
structure Options where
  methods : Bool
  none : Bool
  privates : Bool
  depth : Nat
  lists : Nat

/-- The kind of node `inspect_factory` (or the duplicate path of
`_add_child`) creates. -/
inductive NodeKind : Type where
  | simpleNode : NodeKind
  | methodNode : NodeKind
  | partialNode : NodeKind
  | duplicateNode : NodeKind
  | dictNode : NodeKind
  | setNode : NodeKind
  | listNode : NodeKind
  | querySetNode : NodeKind
  | classNode : NodeKind
deriving DecidableEq

/-- One node of the inspection tree: kind, `_name`, `id(self._obj)`,
`_depth`, `_children`, and `_total_items` (`Option.none` for value-like nodes
whose `get_total_children` returns `None`). -/
inductive Node : Type where
  | mk (kind : NodeKind) (name : String) (objId : ObjId) (nodeDepth : Nat)
      (children : List Node) (totalItems : Option Nat) : Node

def Node.kind : Node → NodeKind
  | .mk k _ _ _ _ _ => k

def Node.objId : Node → ObjId
  | .mk _ _ i _ _ _ => i

def Node.children : Node → List Node
  | .mk _ _ _ _ cs _ => cs

def Node.totalItems : Node → Option Nat
  | .mk _ _ _ _ _ t => t

/-- `ismethod`/`isfunction`/`isinstance(value, partial)`: the `_add_child`
methods skip. -/
def isMethodLike : ObjData → Bool
  | .methodObj _ => true
  | .partialApp _ => true
  | _ => false

/-- `value is None`: the `_add_child` none skip. -/
def isNoneData : ObjData → Bool
  | .noneObj => true
  | _ => false

/-- `isinstance(obj, WHITELIST_USE_SIMPLE_TYPE) or obj is None`: the objects
`been_seen_before` never tracks.  The NAME whitelist (`proxyObj`) is
deliberately not included: the skip at inspect.py:784 tests only the
isinstance whitelist, so `__proxy__` objects are tracked even though the
factory dispatches them to `InspectSimpleType`. -/
def isSimpleOrNone : ObjData → Bool
  | .noneObj => true
  | .simple _ => true
  | _ => false

/-- An object `been_seen_before` does track (`proxyObj` included). -/
def nonSimpleData (d : ObjData) : Bool := !isSimpleOrNone d

/-- An object `inspect_factory` expands into a FULL node (anything not
dispatched to `InspectSimpleType`): `None`, both whitelists excluded. -/
def fullData : ObjData → Bool
  | .noneObj => false
  | .simple _ => false
  | .proxyObj _ => false
  | _ => true

/-- `InspectionManager.been_seen_before` (inspect.py:773-792): simple types
are never tracked; a tracked id already in `_processed` answers `True`; a new
id is recorded and answers `False`.  Returns the answer and the new
`_processed` state. -/
def been_seen_before (heap : Heap) (st : List ObjId) (obj : ObjId) :
    Bool × List ObjId :=
  if isSimpleOrNone (heap obj) then (false, st)
  else if obj ∈ st then (true, st)
  else (false, obj :: st)

/-- An item `_add_child` neither skips as a method nor as `None`. -/
def isEligible (opts : Options) (d : ObjData) : Bool :=
  !(!opts.methods && isMethodLike d) && !(!opts.none && isNoneData d)

/-- The type of the recursive call `_add_child` makes back into
`inspect_factory` at the node's own depth. -/
def Recurse : Type := String → ObjId → List ObjId → Except String (Node × List ObjId)

/-- `InspectBase._add_child` (inspect.py:47-81): method/None skips answer
`False`; `create_child = False` answers `True` without creating; a seen value
appends an `InspectDuplicate` (childless, same depth); otherwise the factory
recursion creates the child.  Returns (added?, created node?, state). -/
def add_child (opts : Options) (heap : Heap) (recurse : Recurse) (selfDepth : Nat)
    (name : String) (value : ObjId) (create_child : Bool) (st : List ObjId) :
    Except String (Bool × Option Node × List ObjId) :=
  if !opts.methods && isMethodLike (heap value) then .ok (false, Option.none, st)
  else if !opts.none && isNoneData (heap value) then .ok (false, Option.none, st)
  else if !create_child then .ok (true, Option.none, st)
  else
    match been_seen_before heap st value with
    | (true, st1) =>
      .ok (true, Option.some (Node.mk .duplicateNode name value selfDepth [] Option.none), st1)
    | (false, st1) =>
      match recurse name value st1 with
      | .error e => .error e
      | .ok (child, st2) => .ok (true, Option.some child, st2)

/-- `InspectDict.__init__` loop (inspect.py:401-416): one `_add_child` per
entry with `create_child = (depth > 0 and len(self._children) < max_items)`,
counting every added item in `_total_items`. -/
def dict_children (opts : Options) (heap : Heap) (recurse : Recurse) (selfDepth : Nat) :
    List (String × ObjId) → List Node → Nat → List ObjId →
    Except String (List Node × Nat × List ObjId)
  | [], children, total, st => .ok (children, total, st)
  | (key, value) :: rest, children, total, st =>
    match add_child opts heap recurse selfDepth key value
        (decide (0 < selfDepth) && decide (children.length < opts.lists)) st with
    | .error e => .error e
    | .ok (added, childOpt, st1) =>
      dict_children opts heap recurse selfDepth rest (children ++ childOpt.toList)
        (if added then total + 1 else total) st1

/-- `InspectList.__init__` loop (inspect.py:460-475), also used by
`InspectSet`: `create_child = (depth > 0 and index < max_items)`, names are
the enumeration indices. -/
def list_children (opts : Options) (heap : Heap) (recurse : Recurse) (selfDepth : Nat) :
    List ObjId → Nat → List Node → Nat → List ObjId →
    Except String (List Node × Nat × List ObjId)
  | [], _, children, total, st => .ok (children, total, st)
  | item :: rest, index, children, total, st =>
    match add_child opts heap recurse selfDepth (toString index) item
        (decide (0 < selfDepth) && decide (index < opts.lists)) st with
    | .error e => .error e
    | .ok (added, childOpt, st1) =>
      list_children opts heap recurse selfDepth rest (index + 1)
        (children ++ childOpt.toList) (if added then total + 1 else total) st1

/-- `InspectQuerySet.__init__` loop (inspect.py:547-566): the query items are
already sliced to `max_items`; every item goes through `_add_child` with the
default `create_child = True`; `_total_items` is `obj.count()`, not touched
by the loop. -/
def qs_children (opts : Options) (heap : Heap) (recurse : Recurse) (selfDepth : Nat) :
    List ObjId → Nat → List Node → List ObjId →
    Except String (List Node × List ObjId)
  | [], _, children, st => .ok (children, st)
  | item :: rest, index, children, st =>
    match add_child opts heap recurse selfDepth (toString index) item true st with
    | .error e => .error e
    | .ok (_, childOpt, st1) =>
      qs_children opts heap recurse selfDepth rest (index + 1)
        (children ++ childOpt.toList) st1

/-- `InspectClass.__init__` loop (inspect.py:612-650): skip `_`-prefixed
names unless the privates option, skip builtin/type/`do_not_call_in_templates`
values, and only process (add and count) members when `depth > 0`. -/
def class_children (opts : Options) (heap : Heap) (recurse : Recurse) (selfDepth : Nat) :
    List ClassAttr → List Node → Nat → List ObjId →
    Except String (List Node × Nat × List ObjId)
  | [], children, total, st => .ok (children, total, st)
  | attr :: rest, children, total, st =>
    if attr.name.startsWith "_" && !opts.privates then
      class_children opts heap recurse selfDepth rest children total st
    else if attr.skipKind then
      class_children opts heap recurse selfDepth rest children total st
    else if 0 < selfDepth then
      match add_child opts heap recurse selfDepth attr.name attr.ref true st with
      | .error e => .error e
      | .ok (added, childOpt, st1) =>
        class_children opts heap recurse selfDepth rest (children ++ childOpt.toList)
          (if added then total + 1 else total) st1
    else
      class_children opts heap recurse selfDepth rest children total st

/-- The type dispatch of `InspectionManager.inspect_factory`
(inspect.py:755-771), for a positive `depth = d + 1`: each node is
constructed with `d = depth - 1` and recurses into children through the
per-type loops.  The recursion back into the factory is the abstract
`recurse` parameter; `inspect_factory` ties the knot. -/
def inspect_dispatch (opts : Options) (heap : Heap) (recurse : Recurse)
    (d : Nat) (name : String) (obj : ObjId) (st : List ObjId) :
    Except String (Node × List ObjId) :=
  match heap obj with
  | .noneObj => .ok (Node.mk .simpleNode name obj d [] Option.none, st)
  | .simple _ => .ok (Node.mk .simpleNode name obj d [] Option.none, st)
  | .proxyObj _ => .ok (Node.mk .simpleNode name obj d [] Option.none, st)
  | .methodObj _ => .ok (Node.mk .methodNode name obj d [] Option.none, st)
  | .partialApp _ => .ok (Node.mk .partialNode name obj d [] Option.none, st)
  | .dictObj entries =>
    match dict_children opts heap recurse d entries [] 0 st with
    | .error e => .error e
    | .ok (children, total, st1) =>
      .ok (Node.mk .dictNode name obj d children (Option.some total), st1)
  | .setObj items =>
    match list_children opts heap recurse d items 0 [] 0 st with
    | .error e => .error e
    | .ok (children, total, st1) =>
      .ok (Node.mk .setNode name obj d children (Option.some total), st1)
  | .listObj items =>
    match list_children opts heap recurse d items 0 [] 0 st with
    | .error e => .error e
    | .ok (children, total, st1) =>
      .ok (Node.mk .listNode name obj d children (Option.some total), st1)
  | .querySetObj items =>
    if 0 < items.length && 0 < d then
      match qs_children opts heap recurse d (items.take opts.lists) 0 [] st with
      | .error e => .error e
      | .ok (children, st1) =>
        .ok (Node.mk .querySetNode name obj d children (Option.some items.length), st1)
    else .ok (Node.mk .querySetNode name obj d [] (Option.some items.length), st)
  | .classObj attrs =>
    match class_children opts heap recurse d attrs [] 0 st with
    | .error e => .error e
    | .ok (children, total, st1) =>
      .ok (Node.mk .classNode name obj d children (Option.some total), st1)

/-- `InspectionManager.inspect_factory` (inspect.py:740-771): `depth <= 0`
raises `ValueError`; otherwise dispatch on the object's type with the
strictly smaller `depth - 1`. -/
def inspect_factory (opts : Options) (heap : Heap) :
    Nat → String → ObjId → List ObjId → Except String (Node × List ObjId)
  | 0, _, _, _ => .error "Internal error in InspectManager: Depth exceeded"
  | d + 1, name, obj, st =>
    inspect_dispatch opts heap (fun nm ob s => inspect_factory opts heap d nm ob s)
      d name obj st

/-- `InspectionManager.__init__` (inspect.py:699-718): empty `_processed`
state, root built by `inspect_factory(name, obj, int(options['depth']) + 1)`. -/
def inspection_build (opts : Options) (heap : Heap) (name : String) (obj : ObjId) :
    Except String (Node × List ObjId) :=
  inspect_factory opts heap (opts.depth + 1) name obj []

/-! ### Tree measures for the inspector claims -/

mutual

/-- Height of an inspection node (a leaf has height 1). -/
def Node.height : Node → Nat
  | .mk _ _ _ _ children _ => heightList children + 1

/-- Greatest height among a list of nodes (0 when empty). -/
def heightList : List Node → Nat
  | [] => 0
  | c :: rest => max c.height (heightList rest)

end

mutual

/-- How many nodes of the tree are FULL expansions of object `x`: nodes with
`objId = x` whose kind is neither a simple value nor a duplicate marker. -/
def countFull (x : ObjId) : Node → Nat
  | .mk kind _ objId _ children _ =>
    (if (kind ≠ .simpleNode ∧ kind ≠ .duplicateNode) ∧ objId = x then 1 else 0)
      + countFullList x children

/-- Sum of `countFull` over a list of nodes. -/
def countFullList (x : ObjId) : List Node → Nat
  | [] => 0
  | c :: rest => countFull x c + countFullList x rest

end

mutual

/-- How many nodes of the tree are expansions of object `x` of ANY
non-duplicate kind: full nodes and `InspectSimpleType` nodes alike.  A
tracked but simple-dispatched (`__proxy__`) object has such an expansion but
no full one. -/
def countExpanded (x : ObjId) : Node → Nat
  | .mk kind _ objId _ children _ =>
    (if kind ≠ .duplicateNode ∧ objId = x then 1 else 0) + countExpandedList x children

/-- Sum of `countExpanded` over a list of nodes. -/
def countExpandedList (x : ObjId) : List Node → Nat
  | [] => 0
  | c :: rest => countExpanded x c + countExpandedList x rest

end

mutual

/-- The object ids referenced by the duplicate markers of the tree (the id a
duplicate's `get_format_link_to` points at is the id of its own object). -/
def dupIds : Node → List ObjId
  | .mk kind _ objId _ children _ =>
    (if kind = .duplicateNode then [objId] else []) ++ dupIdsList children

/-- `dupIds` over a list of nodes. -/
def dupIdsList : List Node → List ObjId
  | [] => []
  | c :: rest => dupIds c ++ dupIdsList rest

end

mutual

/-- Every duplicate marker in the tree carries no children of its own. -/
def dupsChildless : Node → Bool
  | .mk kind _ _ _ children _ =>
    (if kind = .duplicateNode then children.isEmpty else true)
      && dupsChildlessList children

/-- `dupsChildless` over a list of nodes. -/
def dupsChildlessList : List Node → Bool
  | [] => true
  | c :: rest => dupsChildless c && dupsChildlessList rest

end

/-- Count of the eligible objects among a list of member ids. -/
def eligibleCount (opts : Options) (heap : Heap) (items : List ObjId) : Nat :=
  (items.filter (fun v => isEligible opts (heap v))).length

/-- Count of the eligible objects among a dict's values. -/
def eligibleDictCount (opts : Options) (heap : Heap)
    (entries : List (String × ObjId)) : Nat :=
  (entries.filter (fun e => isEligible opts (heap e.2))).length

/-! ### Concrete inspector instances for witnesses and counterexamples -/

/-- The `explore` tag's default options with the `none` option on (the newer
explore tag's default). -/
def opts0 : Options :=
  { methods := false, none := true, privates := false, depth := 3, lists := 5 }

/-- A cyclic object graph: object 0 is a dict containing itself under key
`"self"`; every other id is `None`. -/
def heap0 : Heap := fun i => if i = 0 then .dictObj [("self", 0)] else .noneObj

/-- A heap of one list (id 0) of seven distinct `None`-free simple members
ids 1..7, to exercise the `lists` limit. -/
def heap1 : Heap := fun i => if i = 0 then .listObj [1, 2, 3, 4, 5, 6, 7] else .simple "v"

/-- A heap where the dict object 0 holds the same `__proxy__` object (id 1)
under two keys: the second encounter is a duplicate of a tracked object whose
only expansion is a simple-type node. -/
def heap2 : Heap := fun i =>
  if i = 0 then .dictObj [("a", 1), ("b", 1)] else .proxyObj "lazy"

/-- The countFull applied to the inspection of the cyclic `heap0` graph: how
many times object 0 is fully expanded. -/
def c6_probe : Nat :=
  match inspection_build opts0 heap0 "Explore" 0 with
  | .ok (t, _) => countFull 0 t
  | .error _ => 0

/-- Probe of the `heap2` inspection at the proxy's id 1: its full-expansion
count, its expansion count, and whether a duplicate marker refers to it. -/
def proxy_probe : Nat × Nat × Bool :=
  match inspection_build opts0 heap2 "Explore" 0 with
  | .ok (t, _) => (countFull 1 t, countExpanded 1 t, decide (1 ∈ dupIds t))
  | .error _ => (0, 0, false)

/-! ### Invariant shapes for the inspector proofs -/

/-- The recursion always succeeds (used for claim C4). -/
def RecOkC (recurse : Recurse) : Prop :=
  ∀ nm ob s, ∃ r, recurse nm ob s = .ok r

/-- Trees produced by the recursion stay within `bound` (claim C5). -/
def RecHeight (recurse : Recurse) (bound : Nat) : Prop :=
  ∀ nm ob s t s', recurse nm ob s = .ok (t, s') → Node.height t ≤ bound

/-- What one `inspect_factory` call on object `ob` guarantees, relating the
`_processed` state `s` before, the node built, and the state `s'` after
(claim C6). -/
structure C6Fact (heap : Heap) (ob : ObjId) (s : List ObjId) (t : Node)
    (s' : List ObjId) : Prop where
  mono : ∀ x ∈ s, x ∈ s'
  bound : ∀ x, countFull x t ≤ (if x ∈ s then 0 else 1)
    + (if x = ob ∧ fullData (heap ob) = true then 1 else 0)
  inState : ∀ x, 1 ≤ countFull x t → x ≠ ob → x ∈ s'
  stateCovered : ∀ x ∈ s', x ∈ s ∨ 1 ≤ countExpanded x t
  dupsCovered : ∀ x ∈ dupIds t, x ∈ s ∨ 1 ≤ countExpanded x t
  dupsLeaf : dupsChildless t = true
  expandedRoot : 1 ≤ countExpanded ob t
  simpleLeaf : fullData (heap ob) = false →
    (∀ x, countFull x t = 0) ∧ dupIds t = []

/-- What a run of child additions guarantees about the freshly added nodes
`delta` between states `s` and `s'` (claim C6). -/
structure C6Loop (s : List ObjId) (delta : List Node) (s' : List ObjId) : Prop where
  mono : ∀ x ∈ s, x ∈ s'
  bound : ∀ x, countFullList x delta ≤ (if x ∈ s then 0 else 1)
  inState : ∀ x, 1 ≤ countFullList x delta → x ∈ s'
  stateCovered : ∀ x ∈ s', x ∈ s ∨ 1 ≤ countExpandedList x delta
  dupsCovered : ∀ x ∈ dupIdsList delta, x ∈ s ∨ 1 ≤ countExpandedList x delta
  dupsLeaf : dupsChildlessList delta = true

/-- The recursion satisfies `C6Fact` on every successful call. -/
def C6Rec (heap : Heap) (recurse : Recurse) : Prop :=
  ∀ nm ob s t s', recurse nm ob s = .ok (t, s') → C6Fact heap ob s t s'

/-- The inspection of the cyclic `heap0` graph. -/
def c5_result : Except String (Node × List ObjId) :=
  inspection_build opts0 heap0 "Explore" 0

/-- The tree of the `heap0` inspection. -/
def c5_tree : Node :=
  match c5_result with
  | .ok (t, _) => t
  | .error _ => Node.mk .simpleNode "" 0 0 [] Option.none

/-- The final `_processed` state of the `heap0` inspection. -/
def c5_state : List ObjId :=
  match c5_result with
  | .ok (_, s) => s
  | .error _ => []

/-- The inspection of the seven-member list `heap1`. -/
def c7_result : Except String (Node × List ObjId) :=
  inspection_build opts0 heap1 "Explore" 0

/-- The tree of the `heap1` inspection. -/
def c7_tree : Node :=
  match c7_result with
  | .ok (t, _) => t
  | .error _ => Node.mk .simpleNode "" 0 0 [] Option.none

/-- The final `_processed` state of the `heap1` inspection. -/
def c7_state : List ObjId :=
  match c7_result with
  | .ok (_, s) => s
  | .error _ => []

/-! ## Helper lemmas for template resolution -/

/-- A successful dictionary lookup forces the dictionary to be truthy. -/
theorem truthy_of_get_ne_pnone (v : PyVal) (k : String) (h : v.get k ≠ .pnone) :
    v.truthy = true := by
  cases v with
  | pnone => simp [PyVal.get] at h
  | pstr s => simp [PyVal.get] at h
  | pdict entries =>
    cases entries with
    | nil => simp [PyVal.get, getEntries] at h
    | cons e rest => simp [PyVal.truthy]

/-- If the stored template for `key` is a non-empty string, the source's
truthiness chain accepts. -/
theorem metaHasTemplate_of_stored (md : PyVal) (key : String) (s : String)
    (hs : storedTemplate md key = Option.some s) (hne : s ≠ "") :
    metaHasTemplate md key = true ∧ metaTemplate md key = .pstr s := by
  have hmt : metaTemplate md key = .pstr s := by
    unfold storedTemplate at hs
    cases hval : metaTemplate md key with
    | pnone => rw [hval] at hs; exact absurd hs (by simp)
    | pstr t => rw [hval] at hs; simp at hs; rw [hs]
    | pdict e => rw [hval] at hs; exact absurd hs (by simp)
  refine ⟨?_, hmt⟩
  have h4 : (metaTemplate md key).truthy = true := by
    rw [hmt]; simp [PyVal.truthy, hne]
  have h3 : ((md.get METADATA_PARENT).get METADATA_TEMPLATE_KEY).truthy = true := by
    apply truthy_of_get_ne_pnone
    unfold metaTemplate at hmt
    rw [hmt]; simp
  have h2 : (md.get METADATA_PARENT).truthy = true := by
    apply truthy_of_get_ne_pnone
    intro hz
    unfold metaTemplate at hmt
    rw [hz] at hmt
    simp [PyVal.get] at hmt
  have h1 : md.truthy = true := by
    apply truthy_of_get_ne_pnone (k := METADATA_PARENT)
    intro hz
    unfold metaTemplate at hmt
    rw [hz] at hmt
    simp [PyVal.get] at hmt
  unfold metaHasTemplate
  rw [h1, h2, h3]
  unfold metaTemplate at h4
  rw [h4]
  rfl

/-- Under claim C1's precondition, when nothing (string) is stored the
truthiness chain rejects. -/
theorem metaHasTemplate_eq_false (md : PyVal) (key : String)
    (hok : storedOK md key = true) (hn : storedTemplate md key = Option.none) :
    metaHasTemplate md key = false := by
  unfold metaHasTemplate
  cases hval : metaTemplate md key with
  | pnone =>
    unfold metaTemplate at hval
    rw [hval]
    simp [PyVal.truthy]
  | pstr s =>
    unfold storedTemplate at hn
    rw [hval] at hn
    simp at hn
  | pdict entries =>
    unfold storedOK at hok
    rw [hval] at hok
    simp at hok

/-- Under claim C1's precondition a stored template string is non-empty. -/
theorem stored_ne_empty (md : PyVal) (key s : String)
    (hok : storedOK md key = true) (hs : storedTemplate md key = Option.some s) :
    s ≠ "" := by
  unfold storedOK at hok
  unfold storedTemplate at hs
  cases hval : metaTemplate md key with
  | pnone => rw [hval] at hs; simp at hs
  | pstr t =>
    rw [hval] at hs hok
    simp at hs
    subst hs
    simpa using hok
  | pdict entries => rw [hval] at hok; simp at hok

/-- The category walk agrees with the spec-side first-match walk under the
chain precondition. -/
theorem find_category_template_eq_spec (c : PartCategoryRef) (key d : String)
    (hwf : chainWF c key = true) :
    find_category_template c key d = .pstr (resolve_spec_cat c key d) := by
  induction c with
  | null => rfl
  | node md parent ih =>
    unfold chainWF at hwf
    simp only [Bool.and_eq_true] at hwf
    obtain ⟨⟨_hmeta, hok⟩, hchain⟩ := hwf
    cases hs : storedTemplate md key with
    | some s =>
      have hne : s ≠ "" := stored_ne_empty md key s hok hs
      obtain ⟨hcond, hval⟩ := metaHasTemplate_of_stored md key s hs hne
      simp [find_category_template, hcond, hval, resolve_spec_cat, hs]
    | none =>
      have hcond := metaHasTemplate_eq_false md key hok hs
      simp [find_category_template, hcond, resolve_spec_cat, hs, ih hchain]

/-- C1: template resolution returns the first match in order part metadata,
then nearest-ancestor category metadata, then the default template, under the
precondition that every stored template along the chain is a non-empty string
(and the metadata blobs have the dict nesting the plugin writes). -/
theorem C1_find_template_first_match (p : Part) (key d : String)
    (hp : (metaWF p.metadata && storedOK p.metadata key) = true)
    (hc : chainWF p.category key = true) :
    _find_template (Option.some p) key d = .pstr (resolve_spec p key d) := by
  simp only [Bool.and_eq_true] at hp
  obtain ⟨_hwf, hok⟩ := hp
  cases hs : storedTemplate p.metadata key with
  | some s =>
    have hne : s ≠ "" := stored_ne_empty _ _ _ hok hs
    obtain ⟨hcond, hval⟩ := metaHasTemplate_of_stored _ _ _ hs hne
    simp [_find_template, hcond, hval, resolve_spec, hs]
  | none =>
    have hcond := metaHasTemplate_eq_false _ _ hok hs
    simp [_find_template, hcond, resolve_spec, hs,
      find_category_template_eq_spec _ _ d hc]

/-- Witness for C1 at a concrete part whose own metadata lacks the key and
whose parent category stores a template. -/
theorem C1_find_template_first_match_witness :
    (metaWF part_c1.metadata && storedOK part_c1.metadata "mykey") = true ∧
    chainWF part_c1.category "mykey" = true ∧
    _find_template (Option.some part_c1) "mykey" "DEF"
      = .pstr (resolve_spec part_c1 "mykey" "DEF") :=
  ⟨rfl, rfl, C1_find_template_first_match part_c1 "mykey" "DEF" rfl rfl⟩

/-- C2 counterexample: a part that stores the empty string for key `"k"` does
NOT get that empty string back — the Python truthiness guard
(`...get(key)` falsy on `""`) makes resolution fall through to the default. -/
theorem C2_part_level_counterexample :
    storedTemplate part_c2.metadata "k" = Option.some "" ∧
    _find_template (Option.some part_c2) "k" "DEF" = .pstr "DEF" ∧
    PyVal.pstr "DEF" ≠ PyVal.pstr "" := by
  refine ⟨rfl, rfl, ?_⟩
  simp

/-- C2 (amended): when the part's own metadata stores a NON-EMPTY template
string for the key, `_find_template` returns it without consulting the
category hierarchy or the default; an empty stored string is skipped by the
truthiness guard and resolution falls through. -/
theorem C2_part_level_template_wins (p : Part) (key d s : String)
    (hs : storedTemplate p.metadata key = Option.some s) (hne : s ≠ "") :
    _find_template (Option.some p) key d = .pstr s := by
  obtain ⟨hcond, hval⟩ := metaHasTemplate_of_stored _ _ _ hs hne
  simp [_find_template, hcond, hval]

/-- Witness for the amended C2 at a concrete part storing `"PT"`. -/
theorem C2_part_level_template_wins_witness :
    storedTemplate part_c2w.metadata "k" = Option.some "PT" ∧ "PT" ≠ "" ∧
    _find_template (Option.some part_c2w) "k" "DEF" = .pstr "PT" :=
  ⟨rfl, by simp, C2_part_level_template_wins part_c2w "k" "DEF" "PT" rfl (by simp)⟩

/-- The legacy and new truthiness chains coincide (the class-level constants
hold the same strings as constants.py). -/
theorem plugin_meta_chain_eq (md : PyVal) (key : String) :
    plugin_metaHasTemplate md key = metaHasTemplate md key ∧
    plugin_metaTemplate md key = metaTemplate md key :=
  ⟨rfl, rfl⟩

/-- The two category walks (legacy plugin and new PropertyContext) agree. -/
theorem plugin_category_walk_eq (c : PartCategoryRef) (key d : String) :
    plugin_find_category_template c key d = find_category_template c key d := by
  induction c with
  | null => rfl
  | node md parent ih =>
    simp only [plugin_find_category_template, find_category_template, ih,
      (plugin_meta_chain_eq md key).1, (plugin_meta_chain_eq md key).2]

/-- C9: the legacy `PartTemplatesPlugin._find_template` and the newer
`PropertyContext._find_template` are extensionally equal on every part, key
and default template over the same metadata state. -/
theorem C9_legacy_new_resolution_agree (p : Part) (key d : String) :
    plugin_find_template p key d = _find_template (Option.some p) key d := by
  simp only [plugin_find_template, _find_template, plugin_category_walk_eq,
    (plugin_meta_chain_eq p.metadata key).1, (plugin_meta_chain_eq p.metadata key).2]

/-! ## Scrub theorems -/

/-- On a well-formed rule list the loop is exactly a left fold of the
substitution function over the pattern/replacement pairs. -/
theorem run_rules_ok (reSub : SubFn) (section_name : String) (rules : FilterRules)
    (s : String) (hwf : rulesWF rules = true) :
    run_rules reSub section_name rules s =
      .ok ((rulePairs rules).foldl (fun acc pr => reSub pr.1 pr.2 acc) s) := by
  induction rules generalizing s with
  | nil => rfl
  | cons rule rest ih =>
    unfold rulesWF at hwf
    simp only [List.all_cons, Bool.and_eq_true] at hwf
    obtain ⟨hrule, hrest⟩ := hwf
    unfold ruleWF at hrule
    simp only [Bool.and_eq_true, Option.isSome_iff_exists] at hrule
    obtain ⟨⟨p, hp⟩, ⟨r, hr⟩⟩ := hrule
    simp only [run_rules, hp, hr]
    rw [ih _ hrest]
    simp [rulePairs, List.filterMap_cons, rulePair, hp, hr]

/-- C3 counterexample: with a rule list whose single rule lacks its keys,
`scrub` returns the error marker, not the fold of substitutions (which, for
the identity substitution function, is the input unchanged). -/
theorem C3_scrub_fold_counterexample :
    dictGet config_c3 "filters" = Option.some [("MPN", [[]])] ∧
    scrub subId config_c3 "x" "MPN" = pattern_missing_msg "MPN" ∧
    scrub_spec subId [[]] (globalRules [("MPN", [[]])]) "x" = "x" ∧
    pattern_missing_msg "MPN" ≠ "x" := by
  refine ⟨rfl, rfl, rfl, ?_⟩
  simp [pattern_missing_msg]

/-- C3 (amended): for a non-empty name whose rule list exists and whose rules
(and the `_GLOBAL` rules, when present) each carry `pattern` and
`replacement`, `scrub` is the left-to-right fold of `re.sub` over the named
rules followed by the `_GLOBAL` rules. -/
theorem C3_scrub_is_ordered_fold (reSub : SubFn) (config : Config)
    (s name : String) (fl : Filters) (rules : FilterRules)
    (hname : name ≠ "")
    (hfl : dictGet config "filters" = Option.some fl)
    (hrules : dictGet fl name = Option.some rules)
    (hwf : rulesWF rules = true)
    (hgwf : rulesWF (globalRules fl) = true) :
    scrub reSub config s name = scrub_spec reSub rules (globalRules fl) s := by
  have hname' : (name == "") = false := by simp [hname]
  unfold scrub
  simp only [hname', Bool.false_eq_true, if_false, hfl, hrules]
  rw [run_rules_ok reSub name rules s hwf]
  unfold scrub_spec
  cases hg : dictGet fl "_GLOBAL" with
  | none =>
    simp [globalRules, hg, rulePairs]
  | some g =>
    have hgwf' : rulesWF g = true := by
      unfold globalRules at hgwf
      rw [hg] at hgwf
      simpa using hgwf
    have hrr : ∀ t, run_rules reSub "_GLOBAL" g t =
        .ok ((rulePairs g).foldl (fun acc pr => reSub pr.1 pr.2 acc) t) :=
      fun t => run_rules_ok reSub "_GLOBAL" g t hgwf'
    simp only [hrr]
    simp [globalRules, hg, List.foldl_append]

/-- Witness for the amended C3 on a concrete config: named rules `a/b` then
`c/d`, then the global rule `g/h`, applied in order. -/
theorem C3_scrub_is_ordered_fold_witness :
    ("MPN" : String) ≠ "" ∧
    scrub subTag config_c3w "x" "MPN" =
      scrub_spec subTag [[("pattern", "a"), ("replacement", "b")],
                         [("pattern", "c"), ("replacement", "d")]]
        (globalRules [("MPN", [[("pattern", "a"), ("replacement", "b")],
                               [("pattern", "c"), ("replacement", "d")]]),
                      ("_GLOBAL", [[("pattern", "g"), ("replacement", "h")]])]) "x" :=
  ⟨by simp,
   C3_scrub_is_ordered_fold subTag config_c3w "x" "MPN" _ _ (by simp) rfl rfl rfl rfl⟩

/-- C8 counterexample: for the empty name (which the filters mapping does not
contain), `scrub` returns the `[scrub missing required :name]` marker, not
the input unchanged. -/
theorem C8_absent_rules_counterexample :
    dictGet [("_GLOBAL", [[("pattern", "g"), ("replacement", "h")]])] "" =
      (Option.none : Option FilterRules) ∧
    scrub subId config_c8 "x" "" = "[scrub missing required :name]" ∧
    "[scrub missing required :name]" ≠ "x" := by
  refine ⟨rfl, rfl, ?_⟩
  simp

/-- C8 (amended): for every NON-EMPTY name with no rule list in the filters
mapping, `scrub` returns the input unchanged — in particular `_GLOBAL` is
never applied on its own. -/
theorem C8_absent_rules_returns_input (reSub : SubFn) (config : Config)
    (s name : String) (fl : Filters)
    (hname : name ≠ "")
    (hfl : dictGet config "filters" = Option.some fl)
    (hnone : dictGet fl name = Option.none) :
    scrub reSub config s name = s := by
  have hname' : (name == "") = false := by simp [hname]
  unfold scrub
  simp only [hname', Bool.false_eq_true, if_false, hfl, hnone]

/-- Witness for the amended C8: `config_c8` has a `_GLOBAL` list but no
`"NOPE"` list; scrubbing with `"NOPE"` leaves the input unchanged. -/
theorem C8_absent_rules_returns_input_witness :
    ("NOPE" : String) ≠ "" ∧ scrub subId config_c8 "x" "NOPE" = "x" :=
  ⟨by simp,
   C8_absent_rules_returns_input subId config_c8 "x" "NOPE" _ (by simp) rfl rfl⟩

/-! ## `get_context` theorems -/

/-- Assigning a fresh key appends the entry. -/
theorem dictSet_append (acc : List (String × String)) (k v : String)
    (h : ∀ e ∈ acc, e.1 ≠ k) : dictSet acc k v = acc ++ [(k, v)] := by
  induction acc with
  | nil => rfl
  | cons e rest ih =>
    obtain ⟨ek, ev⟩ := e
    have hek : ek ≠ k := h (ek, ev) (by simp)
    simp only [dictSet, if_neg hek, List.cons_append, List.cons.injEq, true_and]
    exact ih (fun e he => h e (by simp [he]))

/-- Lookup misses when no entry carries the key. -/
theorem dictGet_none_of_all_ne (l : List (String × String)) (k : String)
    (h : ∀ e ∈ l, e.1 ≠ k) : dictGet l k = Option.none := by
  induction l with
  | nil => rfl
  | cons e rest ih =>
    obtain ⟨ek, ev⟩ := e
    have hek : ek ≠ k := h (ek, ev) (by simp)
    simp only [dictGet, if_neg hek]
    exact ih (fun e he => h e (by simp [he]))

/-- If some slot in `ns` is configured and its render fails, the loop result
is the single-entry error dict, whatever was accumulated before. -/
theorem get_context_loop_error (render : RenderFn) (plugin : PluginSettings)
    (p : Part) (ns : List Nat) (acc : List (String × String))
    (hfail : ∃ n ∈ ns, cfgKey plugin n ≠ "" ∧
      (render (foundFor plugin p n)).isOk = false) :
    ∃ m, get_context_loop render plugin p ns acc = [("error", m)] := by
  induction ns generalizing acc with
  | nil => simp at hfail
  | cons n0 rest ih =>
    obtain ⟨n, hn, hkey, hbad⟩ := hfail
    by_cases h0 : cfgKey plugin n0 = ""
    · have h0' : (plugin ("T" ++ toString n0 ++ "_KEY") == "") = true := by
        simpa [cfgKey] using h0
      simp only [get_context_loop, h0', if_true]
      refine ih acc ⟨n, ?_, hkey, hbad⟩
      rcases List.mem_cons.mp hn with h | h
      · exact absurd (h ▸ h0) hkey
      · exact h
    · have h0' : (plugin ("T" ++ toString n0 ++ "_KEY") == "") = false := by
        simpa [cfgKey] using h0
      simp only [get_context_loop, h0', Bool.false_eq_true, if_false]
      cases hr : render (_find_template (Option.some p)
          (plugin ("T" ++ toString n0 ++ "_KEY"))
          (plugin ("T" ++ toString n0 ++ "_TEMPLATE"))) with
      | error e => exact ⟨_, rfl⟩
      | ok r =>
        refine ih _ ⟨n, ?_, hkey, hbad⟩
        rcases List.mem_cons.mp hn with h | h
        · subst h
          have : (render (foundFor plugin p n)).isOk = true := by
            simp [foundFor, cfgKey, cfgTemplate, hr, Except.isOk, Except.toBool]
          rw [this] at hbad
          simp at hbad
        · exact h

/-- If every configured slot in `ns` renders, the loop appends exactly the
expected success entries to the accumulator; needs the keys of `ns` fresh for
the accumulator and pairwise distinct. -/
theorem get_context_loop_success (render : RenderFn) (plugin : PluginSettings)
    (p : Part) (ns : List Nat) (acc : List (String × String))
    (hsucc : ∀ n ∈ ns, cfgKey plugin n ≠ "" → (render (foundFor plugin p n)).isOk = true)
    (hfresh : ∀ n ∈ ns, cfgKey plugin n ≠ "" → ∀ e ∈ acc, e.1 ≠ cfgKey plugin n)
    (hdist : ∀ m ∈ ns, ∀ n ∈ ns, m ≠ n → cfgKey plugin m ≠ "" →
      cfgKey plugin n ≠ "" → cfgKey plugin m ≠ cfgKey plugin n)
    (hnodup : ns.Nodup) :
    get_context_loop render plugin p ns acc = acc ++ successEntriesOver render plugin p ns := by
  induction ns generalizing acc with
  | nil => simp [get_context_loop, successEntriesOver]
  | cons n0 rest ih =>
    have hnodup' : rest.Nodup := (List.nodup_cons.mp hnodup).2
    have hn0 : n0 ∉ rest := (List.nodup_cons.mp hnodup).1
    by_cases h0 : cfgKey plugin n0 = ""
    · have h0' : (plugin ("T" ++ toString n0 ++ "_KEY") == "") = true := by
        simpa [cfgKey] using h0
      simp only [get_context_loop, h0', if_true]
      rw [ih acc (fun n hn => hsucc n (by simp [hn]))
        (fun n hn => hfresh n (by simp [hn]))
        (fun m hm n hn => hdist m (by simp [hm]) n (by simp [hn])) hnodup']
      simp [successEntriesOver, cfgKey] at h0' ⊢
      rw [List.filterMap_cons_none]
      simp [h0']
    · have h0' : (plugin ("T" ++ toString n0 ++ "_KEY") == "") = false := by
        simpa [cfgKey] using h0
      simp only [get_context_loop, h0', Bool.false_eq_true, if_false]
      have hok := hsucc n0 (by simp) h0
      cases hr : render (_find_template (Option.some p)
          (plugin ("T" ++ toString n0 ++ "_KEY"))
          (plugin ("T" ++ toString n0 ++ "_TEMPLATE"))) with
      | error e =>
        have : (render (foundFor plugin p n0)).isOk = false := by
          simp [foundFor, cfgKey, cfgTemplate, hr, Except.isOk, Except.toBool]
        rw [this] at hok
        simp at hok
      | ok r =>
        have hset : dictSet acc (plugin ("T" ++ toString n0 ++ "_KEY")) r
            = acc ++ [(cfgKey plugin n0, r)] := by
          exact dictSet_append acc _ r (hfresh n0 (by simp) h0)
        dsimp only
        rw [hset]
        rw [ih (acc ++ [(cfgKey plugin n0, r)])
          (fun n hn => hsucc n (by simp [hn]))
          ?_
          (fun m hm n hn => hdist m (by simp [hm]) n (by simp [hn])) hnodup']
        · have hentry : successEntriesOver render plugin p (n0 :: rest)
              = (cfgKey plugin n0, r) :: successEntriesOver render plugin p rest := by
            unfold successEntriesOver
            rw [List.filterMap_cons]
            have hrr : render (foundFor plugin p n0) = .ok r := by
              simpa [foundFor, cfgKey, cfgTemplate] using hr
            have h0x : (cfgKey plugin n0 == "") = false := by
              simpa [cfgKey] using h0'
            simp [h0x, hrr]
          rw [hentry]
          simp
        · intro n hn hne e he
          rcases List.mem_append.mp he with h | h
          · exact hfresh n (by simp [hn]) hne e h
          · simp only [List.mem_singleton] at h
            subst h
            exact hdist n0 (by simp) n (by simp [hn]) (fun hc => hn0 (hc ▸ hn)) h0 hne

/-- Every success entry's key is a configured non-empty key of a slot. -/
theorem successEntriesOver_keys (render : RenderFn) (plugin : PluginSettings)
    (p : Part) (ns : List Nat) (e : String × String)
    (he : e ∈ successEntriesOver render plugin p ns) :
    ∃ n ∈ ns, e.1 = cfgKey plugin n ∧ cfgKey plugin n ≠ "" := by
  unfold successEntriesOver at he
  obtain ⟨n, hn, hf⟩ := List.mem_filterMap.mp he
  by_cases h0 : (cfgKey plugin n == "") = true
  · simp [h0] at hf
  · refine ⟨n, hn, ?_, by simpa using h0⟩
    simp only [h0, Bool.false_eq_true, if_false] at hf
    cases hr : render (foundFor plugin p n) with
    | error _ => rw [hr] at hf; simp at hf
    | ok r => rw [hr] at hf; simp at hf; rw [← hf]

/-- Looking up a configured key in the success entries gives its rendered
string (distinct keys). -/
theorem successEntriesOver_lookup (render : RenderFn) (plugin : PluginSettings)
    (p : Part) (ns : List Nat) (n : Nat) (r : String)
    (hn : n ∈ ns) (hne : cfgKey plugin n ≠ "")
    (hr : render (foundFor plugin p n) = .ok r)
    (hdist : ∀ m ∈ ns, ∀ k ∈ ns, m ≠ k → cfgKey plugin m ≠ "" →
      cfgKey plugin k ≠ "" → cfgKey plugin m ≠ cfgKey plugin k)
    (hnodup : ns.Nodup) :
    dictGet (successEntriesOver render plugin p ns) (cfgKey plugin n) = Option.some r := by
  induction ns with
  | nil => simp at hn
  | cons n0 rest ih =>
    have hnodup' : rest.Nodup := (List.nodup_cons.mp hnodup).2
    have hn0 : n0 ∉ rest := (List.nodup_cons.mp hnodup).1
    unfold successEntriesOver
    rw [List.filterMap_cons]
    rcases List.mem_cons.mp hn with heq | hmem
    · subst heq
      have h0' : (cfgKey plugin n == "") = false := by simpa using hne
      simp only [h0', Bool.false_eq_true, if_false, hr]
      simp [dictGet]
    · by_cases h0 : (cfgKey plugin n0 == "") = true
      · simp only [h0, if_true]
        exact ih hmem (fun m hm k hk => hdist m (by simp [hm]) k (by simp [hk])) hnodup'
      · simp only [h0, Bool.false_eq_true, if_false]
        have hne0 : cfgKey plugin n0 ≠ "" := by simpa using h0
        have hkeys : cfgKey plugin n0 ≠ cfgKey plugin n :=
          hdist n0 (by simp) n (by simp [hmem])
            (fun hc => hn0 (hc ▸ hmem)) hne0 hne
        cases hr0 : render (foundFor plugin p n0) with
        | error _ =>
          exact ih hmem (fun m hm k hk => hdist m (by simp [hm]) k (by simp [hk])) hnodup'
        | ok r0 =>
          simp only [List.filterMap_cons]
          unfold dictGet
          rw [if_neg hkeys]
          exact ih hmem (fun m hm k hk => hdist m (by simp [hm]) k (by simp [hk])) hnodup'

/-- C10 (amended): `get_context` is not atomic — a render exception at any
configured slot makes the whole `CONTEXT_KEY` entry the single-entry error
dict (earlier results discarded, later slots unprocessed); on full success the
result is exactly one entry per configured non-empty key with its rendered
string, and — provided the configured keys are pairwise distinct and none of
them is the literal name `'error'` — each key looks up to its rendered string
and no `'error'` entry is present. -/
theorem C10_get_context_atomicity (render : RenderFn) (plugin : PluginSettings)
    (p : Part) :
    ((∃ n ∈ List.range' 1 MAX_TEMPLATES, cfgKey plugin n ≠ "" ∧
        (render (foundFor plugin p n)).isOk = false) →
      ∃ m, get_context render plugin p = [("error", m)]) ∧
    ((∀ n ∈ List.range' 1 MAX_TEMPLATES, cfgKey plugin n ≠ "" →
        (render (foundFor plugin p n)).isOk = true) →
      (∀ m ∈ List.range' 1 MAX_TEMPLATES, ∀ n ∈ List.range' 1 MAX_TEMPLATES,
        m ≠ n → cfgKey plugin m ≠ "" → cfgKey plugin n ≠ "" →
        cfgKey plugin m ≠ cfgKey plugin n) →
      (∀ n ∈ List.range' 1 MAX_TEMPLATES, cfgKey plugin n ≠ "error") →
      get_context render plugin p = successEntries render plugin p ∧
      dictGet (get_context render plugin p) "error" = Option.none ∧
      (∀ n ∈ List.range' 1 MAX_TEMPLATES, cfgKey plugin n ≠ "" →
        ∀ r, render (foundFor plugin p n) = .ok r →
          dictGet (get_context render plugin p) (cfgKey plugin n) = Option.some r)) := by
  have hnodup : (List.range' 1 MAX_TEMPLATES).Nodup := by decide
  constructor
  · intro hfail
    exact get_context_loop_error render plugin p _ [] hfail
  · intro hsucc hdist herr
    have hmain : get_context render plugin p = successEntries render plugin p := by
      unfold get_context successEntries
      rw [get_context_loop_success render plugin p _ [] hsucc (by simp) hdist hnodup]
      simp
    refine ⟨hmain, ?_, ?_⟩
    · rw [hmain]
      apply dictGet_none_of_all_ne
      intro e he
      obtain ⟨n, hn, hkey, _⟩ := successEntriesOver_keys render plugin p _ e he
      rw [hkey]
      exact herr n hn
    · intro n hn hne r hr
      rw [hmain]
      exact successEntriesOver_lookup render plugin p _ n r hn hne hr hdist hnodup

/-- Witness for C10 at concrete settings (one key `"alpha"`) and an
always-succeeding renderer. -/
theorem C10_get_context_atomicity_witness :
    get_context render_w plugin_w part_plain = successEntries render_w plugin_w part_plain ∧
    dictGet (get_context render_w plugin_w part_plain) "error" = Option.none :=
  ⟨((C10_get_context_atomicity render_w plugin_w part_plain).2
      (by decide) (by decide) (by decide)).1,
   (((C10_get_context_atomicity render_w plugin_w part_plain).2
      (by decide) (by decide) (by decide)).2).1⟩

/-- C10 counterexample: with the context-variable name `'error'` configured
and every render succeeding, the fully-successful result contains an
`'error'` entry, falsifying the claim's "no 'error' entry is present on full
success". -/
theorem C10_error_key_counterexample :
    (∀ n ∈ List.range' 1 MAX_TEMPLATES, (render_ok (foundFor plugin_err part_plain n)).isOk = true) ∧
    get_context render_ok plugin_err part_plain = [("error", "v")] := by
  constructor
  · intro n _
    rfl
  · rfl

/-! ## Inspector theorems: claim C4 (the depth guard never fires) -/

/-- `_add_child` succeeds whenever the recursion it may invoke succeeds. -/
theorem add_child_ok (opts : Options) (heap : Heap) (recurse : Recurse)
    (selfDepth : Nat) (name : String) (value : ObjId) (create_child : Bool)
    (st : List ObjId) (hrec : create_child = true → RecOkC recurse) :
    ∃ r, add_child opts heap recurse selfDepth name value create_child st = .ok r := by
  unfold add_child
  by_cases h1 : (!opts.methods && isMethodLike (heap value)) = true
  · rw [if_pos h1]; exact ⟨_, rfl⟩
  · rw [if_neg h1]
    by_cases h2 : (!opts.none && isNoneData (heap value)) = true
    · rw [if_pos h2]; exact ⟨_, rfl⟩
    · rw [if_neg h2]
      by_cases h3 : (!create_child) = true
      · rw [if_pos h3]; exact ⟨_, rfl⟩
      · rw [if_neg h3]
        have hc : create_child = true := by
          cases create_child
          · simp at h3
          · rfl
        cases hseen : been_seen_before heap st value with
        | mk seen st1 =>
          cases seen with
          | false =>
            dsimp only
            obtain ⟨⟨child, st2⟩, heq⟩ := hrec hc name value st1
            rw [heq]
            exact ⟨_, rfl⟩
          | true => exact ⟨_, rfl⟩

/-- The dict loop succeeds whenever the recursion does. -/
theorem dict_children_ok (opts : Options) (heap : Heap) (recurse : Recurse)
    (selfDepth : Nat) (hrec : 0 < selfDepth → RecOkC recurse) :
    ∀ entries children total st,
      ∃ r, dict_children opts heap recurse selfDepth entries children total st = .ok r := by
  intro entries
  induction entries with
  | nil => intro children total st; exact ⟨_, rfl⟩
  | cons e rest ih =>
    intro children total st
    obtain ⟨key, value⟩ := e
    have hflag : (decide (0 < selfDepth) && decide (children.length < opts.lists)) = true
        → RecOkC recurse := by
      intro hf
      simp only [Bool.and_eq_true, decide_eq_true_eq] at hf
      exact hrec hf.1
    obtain ⟨⟨added, childOpt, st1⟩, heq⟩ :=
      add_child_ok opts heap recurse selfDepth key value _ st hflag
    unfold dict_children
    rw [heq]
    exact ih _ _ _

/-- The list/set loop succeeds whenever the recursion does. -/
theorem list_children_ok (opts : Options) (heap : Heap) (recurse : Recurse)
    (selfDepth : Nat) (hrec : 0 < selfDepth → RecOkC recurse) :
    ∀ items index children total st,
      ∃ r, list_children opts heap recurse selfDepth items index children total st = .ok r := by
  intro items
  induction items with
  | nil => intro index children total st; exact ⟨_, rfl⟩
  | cons item rest ih =>
    intro index children total st
    have hflag : (decide (0 < selfDepth) && decide (index < opts.lists)) = true
        → RecOkC recurse := by
      intro hf
      simp only [Bool.and_eq_true, decide_eq_true_eq] at hf
      exact hrec hf.1
    obtain ⟨⟨added, childOpt, st1⟩, heq⟩ :=
      add_child_ok opts heap recurse selfDepth (toString index) item _ st hflag
    unfold list_children
    rw [heq]
    exact ih _ _ _ _

/-- The queryset loop succeeds whenever the recursion does. -/
theorem qs_children_ok (opts : Options) (heap : Heap) (recurse : Recurse)
    (selfDepth : Nat) (hrec : RecOkC recurse) :
    ∀ items index children st,
      ∃ r, qs_children opts heap recurse selfDepth items index children st = .ok r := by
  intro items
  induction items with
  | nil => intro index children st; exact ⟨_, rfl⟩
  | cons item rest ih =>
    intro index children st
    obtain ⟨⟨added, childOpt, st1⟩, heq⟩ :=
      add_child_ok opts heap recurse selfDepth (toString index) item true st (fun _ => hrec)
    unfold qs_children
    rw [heq]
    exact ih _ _ _

/-- The class-attribute loop succeeds whenever the recursion does. -/
theorem class_children_ok (opts : Options) (heap : Heap) (recurse : Recurse)
    (selfDepth : Nat) (hrec : 0 < selfDepth → RecOkC recurse) :
    ∀ attrs children total st,
      ∃ r, class_children opts heap recurse selfDepth attrs children total st = .ok r := by
  intro attrs
  induction attrs with
  | nil => intro children total st; exact ⟨_, rfl⟩
  | cons attr rest ih =>
    intro children total st
    unfold class_children
    by_cases hp : (attr.name.startsWith "_" && !opts.privates) = true
    · rw [if_pos hp]; exact ih _ _ _
    · rw [if_neg hp]
      by_cases hs : attr.skipKind = true
      · rw [if_pos hs]; exact ih _ _ _
      · rw [if_neg hs]
        by_cases hd : 0 < selfDepth
        · rw [if_pos hd]
          obtain ⟨⟨added, childOpt, st1⟩, heq⟩ :=
            add_child_ok opts heap recurse selfDepth attr.name attr.ref true st
              (fun _ => hrec hd)
          rw [heq]
          exact ih _ _ _
        · rw [if_neg hd]; exact ih _ _ _

/-- The dispatch succeeds whenever the recursion succeeds at positive depth. -/
theorem inspect_dispatch_ok (opts : Options) (heap : Heap) (recurse : Recurse)
    (d : Nat) (nm : String) (ob : ObjId) (st : List ObjId)
    (hrec : 0 < d → RecOkC recurse) :
    ∃ r, inspect_dispatch opts heap recurse d nm ob st = .ok r := by
  unfold inspect_dispatch
  cases hdata : heap ob with
  | noneObj => exact ⟨_, rfl⟩
  | simple v => exact ⟨_, rfl⟩
  | proxyObj v => exact ⟨_, rfl⟩
  | methodObj ps => exact ⟨_, rfl⟩
  | partialApp v => exact ⟨_, rfl⟩
  | dictObj entries =>
    dsimp only
    obtain ⟨⟨children, total, st1⟩, heq⟩ :=
      dict_children_ok opts heap recurse d hrec entries [] 0 st
    rw [heq]
    exact ⟨_, rfl⟩
  | setObj items =>
    dsimp only
    obtain ⟨⟨children, total, st1⟩, heq⟩ :=
      list_children_ok opts heap recurse d hrec items 0 [] 0 st
    rw [heq]
    exact ⟨_, rfl⟩
  | listObj items =>
    dsimp only
    obtain ⟨⟨children, total, st1⟩, heq⟩ :=
      list_children_ok opts heap recurse d hrec items 0 [] 0 st
    rw [heq]
    exact ⟨_, rfl⟩
  | querySetObj items =>
    dsimp only
    by_cases hg : (0 < items.length && 0 < d) = true
    · rw [if_pos hg]
      have hd : 0 < d := by
        simp only [Bool.and_eq_true, decide_eq_true_eq] at hg
        exact hg.2
      obtain ⟨⟨children, st1⟩, heq⟩ :=
        qs_children_ok opts heap recurse d (hrec hd) (items.take opts.lists) 0 [] st
      rw [heq]
      exact ⟨_, rfl⟩
    · rw [if_neg hg]
      exact ⟨_, rfl⟩
  | classObj attrs =>
    dsimp only
    obtain ⟨⟨children, total, st1⟩, heq⟩ :=
      class_children_ok opts heap recurse d hrec attrs [] 0 st
    rw [heq]
    exact ⟨_, rfl⟩

/-- `inspect_factory` succeeds at every positive depth: each node passes its
already-decremented depth to its children, and children are created only
while that depth is positive. -/
theorem inspect_factory_ok (opts : Options) (heap : Heap) :
    ∀ d nm ob st, ∃ r, inspect_factory opts heap (d + 1) nm ob st = .ok r := by
  intro d
  induction d with
  | zero =>
    intro nm ob st
    exact inspect_dispatch_ok opts heap _ 0 nm ob st (fun h => absurd h (by omega))
  | succ d ih =>
    intro nm ob st
    exact inspect_dispatch_ok opts heap _ (d + 1) nm ob st (fun _ nm2 ob2 s => ih nm2 ob2 s)

/-- C4: for every inspection started with a depth option ≥ 0 (as the explore
tag builds it), the `ValueError('Depth exceeded')` branch of
`inspect_factory` is unreachable: the whole construction succeeds, because the
constructor passes `depth + 1` and every recursion strictly decreases a
positive depth. -/
theorem C4_no_depth_error (opts : Options) (heap : Heap) (name : String) (obj : ObjId) :
    (inspection_build opts heap name obj).isOk = true := by
  obtain ⟨r, heq⟩ := inspect_factory_ok opts heap opts.depth name obj []
  unfold inspection_build
  rw [heq]
  rfl

/-! ## Inspector theorems: claim C5 (construction bounded by depth) -/

/-- Height of an appended node list. -/
theorem heightList_append (a b : List Node) :
    heightList (a ++ b) = max (heightList a) (heightList b) := by
  induction a with
  | nil => simp [heightList]
  | cons c rest ih =>
    simp only [List.cons_append, List.append_eq, heightList]
    rw [ih]
    exact (Nat.max_assoc _ _ _).symm

/-- Any node `_add_child` appends has height at most the node's depth. -/
theorem add_child_height (opts : Options) (heap : Heap) (recurse : Recurse)
    (selfDepth : Nat) (name : String) (value : ObjId) (create_child : Bool)
    (st : List ObjId) (added : Bool) (childOpt : Option Node) (st' : List ObjId)
    (hflag : create_child = true → 0 < selfDepth)
    (hrec : create_child = true → RecHeight recurse selfDepth)
    (heq : add_child opts heap recurse selfDepth name value create_child st
      = .ok (added, childOpt, st')) :
    ∀ c ∈ childOpt.toList, Node.height c ≤ selfDepth := by
  unfold add_child at heq
  by_cases h1 : (!opts.methods && isMethodLike (heap value)) = true
  · rw [if_pos h1] at heq
    simp only [Except.ok.injEq, Prod.mk.injEq] at heq
    simp [← heq.2.1]
  · rw [if_neg h1] at heq
    by_cases h2 : (!opts.none && isNoneData (heap value)) = true
    · rw [if_pos h2] at heq
      simp only [Except.ok.injEq, Prod.mk.injEq] at heq
      simp [← heq.2.1]
    · rw [if_neg h2] at heq
      by_cases h3 : (!create_child) = true
      · rw [if_pos h3] at heq
        simp only [Except.ok.injEq, Prod.mk.injEq] at heq
        simp [← heq.2.1]
      · rw [if_neg h3] at heq
        have hc : create_child = true := by
          cases create_child
          · simp at h3
          · rfl
        cases hseen : been_seen_before heap st value with
        | mk seen st1 =>
          rw [hseen] at heq
          cases seen with
          | false =>
            dsimp only at heq
            cases hr : recurse name value st1 with
            | error e => rw [hr] at heq; simp at heq
            | ok pr =>
              obtain ⟨child, st2⟩ := pr
              rw [hr] at heq
              simp only [Except.ok.injEq, Prod.mk.injEq] at heq
              intro c hcmem
              rw [← heq.2.1] at hcmem
              simp only [Option.toList_some, List.mem_singleton] at hcmem
              rw [hcmem]
              exact hrec hc name value st1 child st2 hr
          | true =>
            dsimp only at heq
            simp only [Except.ok.injEq, Prod.mk.injEq] at heq
            intro c hcmem
            rw [← heq.2.1] at hcmem
            simp only [Option.toList_some, List.mem_singleton] at hcmem
            rw [hcmem]
            have hpos := hflag hc
            simp only [Node.height, heightList]
            omega

/-- The dict loop preserves the height bound on the children list. -/
theorem dict_children_height (opts : Options) (heap : Heap) (recurse : Recurse)
    (selfDepth : Nat) (hrec : 0 < selfDepth → RecHeight recurse selfDepth) :
    ∀ entries children total st children' total' st',
      dict_children opts heap recurse selfDepth entries children total st
        = .ok (children', total', st') →
      heightList children ≤ selfDepth → heightList children' ≤ selfDepth := by
  intro entries
  induction entries with
  | nil =>
    intro children total st children' total' st' heq hacc
    unfold dict_children at heq
    simp only [Except.ok.injEq, Prod.mk.injEq] at heq
    rw [← heq.1]
    exact hacc
  | cons e rest ih =>
    intro children total st children' total' st' heq hacc
    obtain ⟨key, value⟩ := e
    unfold dict_children at heq
    cases hadd : add_child opts heap recurse selfDepth key value
        (decide (0 < selfDepth) && decide (children.length < opts.lists)) st with
    | error er => rw [hadd] at heq; simp at heq
    | ok r =>
      obtain ⟨added, childOpt, st1⟩ := r
      rw [hadd] at heq
      dsimp only at heq
      refine ih _ _ _ _ _ _ heq ?_
      rw [heightList_append]
      have hchild := add_child_height opts heap recurse selfDepth key value _ st
        added childOpt st1
        (by intro hf; simp only [Bool.and_eq_true, decide_eq_true_eq] at hf; exact hf.1)
        (by intro hf; simp only [Bool.and_eq_true, decide_eq_true_eq] at hf; exact hrec hf.1)
        hadd
      cases childOpt with
      | none => simpa [heightList] using hacc
      | some c =>
        have := hchild c (by simp)
        simp only [Option.toList_some, heightList]
        omega

/-- The list/set loop preserves the height bound on the children list. -/
theorem list_children_height (opts : Options) (heap : Heap) (recurse : Recurse)
    (selfDepth : Nat) (hrec : 0 < selfDepth → RecHeight recurse selfDepth) :
    ∀ items index children total st children' total' st',
      list_children opts heap recurse selfDepth items index children total st
        = .ok (children', total', st') →
      heightList children ≤ selfDepth → heightList children' ≤ selfDepth := by
  intro items
  induction items with
  | nil =>
    intro index children total st children' total' st' heq hacc
    unfold list_children at heq
    simp only [Except.ok.injEq, Prod.mk.injEq] at heq
    rw [← heq.1]
    exact hacc
  | cons item rest ih =>
    intro index children total st children' total' st' heq hacc
    unfold list_children at heq
    cases hadd : add_child opts heap recurse selfDepth (toString index) item
        (decide (0 < selfDepth) && decide (index < opts.lists)) st with
    | error er => rw [hadd] at heq; simp at heq
    | ok r =>
      obtain ⟨added, childOpt, st1⟩ := r
      rw [hadd] at heq
      dsimp only at heq
      refine ih _ _ _ _ _ _ _ heq ?_
      rw [heightList_append]
      have hchild := add_child_height opts heap recurse selfDepth (toString index) item _ st
        added childOpt st1
        (by intro hf; simp only [Bool.and_eq_true, decide_eq_true_eq] at hf; exact hf.1)
        (by intro hf; simp only [Bool.and_eq_true, decide_eq_true_eq] at hf; exact hrec hf.1)
        hadd
      cases childOpt with
      | none => simpa [heightList] using hacc
      | some c =>
        have := hchild c (by simp)
        simp only [Option.toList_some, heightList]
        omega

/-- The queryset loop preserves the height bound on the children list. -/
theorem qs_children_height (opts : Options) (heap : Heap) (recurse : Recurse)
    (selfDepth : Nat) (hd : 0 < selfDepth) (hrec : RecHeight recurse selfDepth) :
    ∀ items index children st children' st',
      qs_children opts heap recurse selfDepth items index children st = .ok (children', st') →
      heightList children ≤ selfDepth → heightList children' ≤ selfDepth := by
  intro items
  induction items with
  | nil =>
    intro index children st children' st' heq hacc
    unfold qs_children at heq
    simp only [Except.ok.injEq, Prod.mk.injEq] at heq
    rw [← heq.1]
    exact hacc
  | cons item rest ih =>
    intro index children st children' st' heq hacc
    unfold qs_children at heq
    cases hadd : add_child opts heap recurse selfDepth (toString index) item true st with
    | error er => rw [hadd] at heq; simp at heq
    | ok r =>
      obtain ⟨added, childOpt, st1⟩ := r
      rw [hadd] at heq
      dsimp only at heq
      refine ih _ _ _ _ _ heq ?_
      rw [heightList_append]
      have hchild := add_child_height opts heap recurse selfDepth (toString index) item true st
        added childOpt st1 (fun _ => hd) (fun _ => hrec) hadd
      cases childOpt with
      | none => simpa [heightList] using hacc
      | some c =>
        have := hchild c (by simp)
        simp only [Option.toList_some, heightList]
        omega

/-- The class loop preserves the height bound on the children list. -/
theorem class_children_height (opts : Options) (heap : Heap) (recurse : Recurse)
    (selfDepth : Nat) (hrec : 0 < selfDepth → RecHeight recurse selfDepth) :
    ∀ attrs children total st children' total' st',
      class_children opts heap recurse selfDepth attrs children total st
        = .ok (children', total', st') →
      heightList children ≤ selfDepth → heightList children' ≤ selfDepth := by
  intro attrs
  induction attrs with
  | nil =>
    intro children total st children' total' st' heq hacc
    unfold class_children at heq
    simp only [Except.ok.injEq, Prod.mk.injEq] at heq
    rw [← heq.1]
    exact hacc
  | cons attr rest ih =>
    intro children total st children' total' st' heq hacc
    unfold class_children at heq
    by_cases hp : (attr.name.startsWith "_" && !opts.privates) = true
    · rw [if_pos hp] at heq
      exact ih _ _ _ _ _ _ heq hacc
    · rw [if_neg hp] at heq
      by_cases hs : attr.skipKind = true
      · rw [if_pos hs] at heq
        exact ih _ _ _ _ _ _ heq hacc
      · rw [if_neg hs] at heq
        by_cases hdpos : 0 < selfDepth
        · rw [if_pos hdpos] at heq
          cases hadd : add_child opts heap recurse selfDepth attr.name attr.ref true st with
          | error er => rw [hadd] at heq; simp at heq
          | ok r =>
            obtain ⟨added, childOpt, st1⟩ := r
            rw [hadd] at heq
            dsimp only at heq
            refine ih _ _ _ _ _ _ heq ?_
            rw [heightList_append]
            have hchild := add_child_height opts heap recurse selfDepth attr.name attr.ref
              true st added childOpt st1 (fun _ => hdpos) (fun _ => hrec hdpos) hadd
            cases childOpt with
            | none => simpa [heightList] using hacc
            | some c =>
              have := hchild c (by simp)
              simp only [Option.toList_some, heightList]
              omega
        · rw [if_neg hdpos] at heq
          exact ih _ _ _ _ _ _ heq hacc

/-- A successful dispatch at inner depth `d` yields a tree of height at most
`d + 1`. -/
theorem inspect_dispatch_height (opts : Options) (heap : Heap) (recurse : Recurse)
    (d : Nat) (nm : String) (ob : ObjId) (st : List ObjId) (t : Node) (st' : List ObjId)
    (hrec : 0 < d → RecHeight recurse d)
    (heq : inspect_dispatch opts heap recurse d nm ob st = .ok (t, st')) :
    Node.height t ≤ d + 1 := by
  unfold inspect_dispatch at heq
  cases hdata : heap ob <;> rw [hdata] at heq <;> dsimp only at heq
  case noneObj =>
    simp only [Except.ok.injEq, Prod.mk.injEq] at heq
    rw [← heq.1]
    simp [Node.height, heightList]
  case simple v =>
    simp only [Except.ok.injEq, Prod.mk.injEq] at heq
    rw [← heq.1]
    simp [Node.height, heightList]
  case proxyObj v =>
    simp only [Except.ok.injEq, Prod.mk.injEq] at heq
    rw [← heq.1]
    simp [Node.height, heightList]
  case methodObj ps =>
    simp only [Except.ok.injEq, Prod.mk.injEq] at heq
    rw [← heq.1]
    simp [Node.height, heightList]
  case partialApp v =>
    simp only [Except.ok.injEq, Prod.mk.injEq] at heq
    rw [← heq.1]
    simp [Node.height, heightList]
  case dictObj entries =>
    cases hloop : dict_children opts heap recurse d entries [] 0 st with
    | error er => rw [hloop] at heq; simp at heq
    | ok r =>
      obtain ⟨children, total, st1⟩ := r
      rw [hloop] at heq
      simp only [Except.ok.injEq, Prod.mk.injEq] at heq
      rw [← heq.1]
      have := dict_children_height opts heap recurse d hrec entries [] 0 st children total st1
        hloop (by simp [heightList])
      simp only [Node.height]
      omega
  case setObj items =>
    cases hloop : list_children opts heap recurse d items 0 [] 0 st with
    | error er => rw [hloop] at heq; simp at heq
    | ok r =>
      obtain ⟨children, total, st1⟩ := r
      rw [hloop] at heq
      simp only [Except.ok.injEq, Prod.mk.injEq] at heq
      rw [← heq.1]
      have := list_children_height opts heap recurse d hrec items 0 [] 0 st children total st1
        hloop (by simp [heightList])
      simp only [Node.height]
      omega
  case listObj items =>
    cases hloop : list_children opts heap recurse d items 0 [] 0 st with
    | error er => rw [hloop] at heq; simp at heq
    | ok r =>
      obtain ⟨children, total, st1⟩ := r
      rw [hloop] at heq
      simp only [Except.ok.injEq, Prod.mk.injEq] at heq
      rw [← heq.1]
      have := list_children_height opts heap recurse d hrec items 0 [] 0 st children total st1
        hloop (by simp [heightList])
      simp only [Node.height]
      omega
  case querySetObj items =>
    by_cases hg : (0 < items.length && 0 < d) = true
    · rw [if_pos hg] at heq
      have hd : 0 < d := by
        simp only [Bool.and_eq_true, decide_eq_true_eq] at hg
        exact hg.2
      cases hloop : qs_children opts heap recurse d (items.take opts.lists) 0 [] st with
      | error er => rw [hloop] at heq; simp at heq
      | ok r =>
        obtain ⟨children, st1⟩ := r
        rw [hloop] at heq
        simp only [Except.ok.injEq, Prod.mk.injEq] at heq
        rw [← heq.1]
        have := qs_children_height opts heap recurse d hd (hrec hd)
          (items.take opts.lists) 0 [] st children st1 hloop (by simp [heightList])
        simp only [Node.height]
        omega
    · rw [if_neg hg] at heq
      simp only [Except.ok.injEq, Prod.mk.injEq] at heq
      rw [← heq.1]
      simp [Node.height, heightList]
  case classObj attrs =>
    cases hloop : class_children opts heap recurse d attrs [] 0 st with
    | error er => rw [hloop] at heq; simp at heq
    | ok r =>
      obtain ⟨children, total, st1⟩ := r
      rw [hloop] at heq
      simp only [Except.ok.injEq, Prod.mk.injEq] at heq
      rw [← heq.1]
      have := class_children_height opts heap recurse d hrec attrs [] 0 st children total st1
        hloop (by simp [heightList])
      simp only [Node.height]
      omega

/-- A successful factory call at depth `d + 1` yields height at most `d + 1`. -/
theorem inspect_factory_height (opts : Options) (heap : Heap) :
    ∀ d nm ob st t st',
      inspect_factory opts heap (d + 1) nm ob st = .ok (t, st') →
      Node.height t ≤ d + 1 := by
  intro d
  induction d with
  | zero =>
    intro nm ob st t st' heq
    exact inspect_dispatch_height opts heap _ 0 nm ob st t st'
      (fun h => absurd h (by omega)) heq
  | succ d ih =>
    intro nm ob st t st' heq
    exact inspect_dispatch_height opts heap _ (d + 1) nm ob st t st'
      (fun _ nm2 ob2 s t2 s2 h2 => ih nm2 ob2 s t2 s2 h2) heq

/-- C5: tree construction is well-founded in the depth argument and
terminates on every object graph, cyclic ones included: the model's
`inspect_factory` is total, and every tree it builds has height bounded by
the depth argument (each recursive call receives a strictly smaller depth,
and children are built only while the decremented depth is positive). -/
theorem C5_construction_bounded_by_depth (opts : Options) (heap : Heap)
    (depth : Nat) (name : String) (obj : ObjId) (st : List ObjId)
    (t : Node) (st' : List ObjId)
    (heq : inspect_factory opts heap depth name obj st = .ok (t, st')) :
    Node.height t ≤ depth := by
  cases depth with
  | zero => simp [inspect_factory] at heq
  | succ d => exact inspect_factory_height opts heap d name obj st t st' heq

/-- Witness for C5 on the CYCLIC graph `heap0` (object 0 contains itself):
construction still succeeds and the tree height stays within the depth. -/
theorem C5_construction_bounded_by_depth_witness :
    inspect_factory opts0 heap0 (opts0.depth + 1) "Explore" 0 [] = .ok (c5_tree, c5_state) ∧
    Node.height c5_tree ≤ opts0.depth + 1 :=
  ⟨rfl, C5_construction_bounded_by_depth opts0 heap0 (opts0.depth + 1) "Explore" 0 []
    c5_tree c5_state rfl⟩

/-! ## Inspector theorems: claim C7 (max_items limit and total counts) -/

/-- What a successful `_add_child` reports: the `True`/`False` answer is
exactly eligibility (the method/None skips), and a node is only created when
`create_child` was passed `True`. -/
theorem add_child_spec (opts : Options) (heap : Heap) (recurse : Recurse)
    (selfDepth : Nat) (name : String) (value : ObjId) (create_child : Bool)
    (st : List ObjId) (added : Bool) (childOpt : Option Node) (st' : List ObjId)
    (heq : add_child opts heap recurse selfDepth name value create_child st
      = .ok (added, childOpt, st')) :
    added = isEligible opts (heap value) ∧
    (childOpt.isSome = true → create_child = true) := by
  unfold add_child at heq
  by_cases h1 : (!opts.methods && isMethodLike (heap value)) = true
  · rw [if_pos h1] at heq
    simp only [Except.ok.injEq, Prod.mk.injEq] at heq
    refine ⟨?_, ?_⟩
    · rw [← heq.1]
      simp [isEligible, h1]
    · rw [← heq.2.1]
      simp
  · rw [if_neg h1] at heq
    by_cases h2 : (!opts.none && isNoneData (heap value)) = true
    · rw [if_pos h2] at heq
      simp only [Except.ok.injEq, Prod.mk.injEq] at heq
      refine ⟨?_, ?_⟩
      · rw [← heq.1]
        simp only [isEligible, h2]
        simp [Bool.eq_false_iff.mpr h1]
      · rw [← heq.2.1]
        simp
    · rw [if_neg h2] at heq
      have hm : (!opts.methods && isMethodLike (heap value)) = false := by
        cases hx : (!opts.methods && isMethodLike (heap value))
        · rfl
        · exact absurd hx h1
      have hn : (!opts.none && isNoneData (heap value)) = false := by
        cases hx : (!opts.none && isNoneData (heap value))
        · rfl
        · exact absurd hx h2
      have helig : isEligible opts (heap value) = true := by
        simp [isEligible, hm, hn]
      by_cases h3 : (!create_child) = true
      · rw [if_pos h3] at heq
        simp only [Except.ok.injEq, Prod.mk.injEq] at heq
        refine ⟨by rw [← heq.1, helig], ?_⟩
        rw [← heq.2.1]
        simp
      · rw [if_neg h3] at heq
        have hc : create_child = true := by
          cases create_child
          · simp at h3
          · rfl
        cases hseen : been_seen_before heap st value with
        | mk seen st1 =>
          rw [hseen] at heq
          cases seen with
          | false =>
            dsimp only at heq
            cases hr : recurse name value st1 with
            | error e => rw [hr] at heq; simp at heq
            | ok pr =>
              obtain ⟨child, st2⟩ := pr
              rw [hr] at heq
              simp only [Except.ok.injEq, Prod.mk.injEq] at heq
              exact ⟨by rw [← heq.1, helig], fun _ => hc⟩
          | true =>
            dsimp only at heq
            simp only [Except.ok.injEq, Prod.mk.injEq] at heq
            exact ⟨by rw [← heq.1, helig], fun _ => hc⟩

/-- The dict loop never grows the children list beyond `max_items`. -/
theorem dict_children_length (opts : Options) (heap : Heap) (recurse : Recurse)
    (selfDepth : Nat) :
    ∀ entries children total st children' total' st',
      dict_children opts heap recurse selfDepth entries children total st
        = .ok (children', total', st') →
      children'.length ≤ max children.length opts.lists := by
  intro entries
  induction entries with
  | nil =>
    intro children total st children' total' st' heq
    unfold dict_children at heq
    simp only [Except.ok.injEq, Prod.mk.injEq] at heq
    rw [← heq.1]
    exact Nat.le_max_left _ _
  | cons e rest ih =>
    intro children total st children' total' st' heq
    obtain ⟨key, value⟩ := e
    unfold dict_children at heq
    cases hadd : add_child opts heap recurse selfDepth key value
        (decide (0 < selfDepth) && decide (children.length < opts.lists)) st with
    | error er => rw [hadd] at heq; simp at heq
    | ok r =>
      obtain ⟨added, childOpt, st1⟩ := r
      rw [hadd] at heq
      dsimp only at heq
      obtain ⟨_, hcreate⟩ := add_child_spec opts heap recurse selfDepth key value _ st
        added childOpt st1 hadd
      cases childOpt with
      | none =>
        have := ih _ _ _ _ _ _ heq
        simpa using this
      | some c =>
        have hflag := hcreate (by simp)
        simp only [Bool.and_eq_true, decide_eq_true_eq] at hflag
        have hlt : children.length < opts.lists := hflag.2
        have := ih _ _ _ _ _ _ heq
        simp only [List.length_append, Option.toList_some, List.length_singleton] at this
        omega

/-- The list/set loop never grows the children list beyond `max_items`. -/
theorem list_children_length (opts : Options) (heap : Heap) (recurse : Recurse)
    (selfDepth : Nat) :
    ∀ items index children total st children' total' st',
      list_children opts heap recurse selfDepth items index children total st
        = .ok (children', total', st') →
      children'.length ≤ children.length + (opts.lists - index) := by
  intro items
  induction items with
  | nil =>
    intro index children total st children' total' st' heq
    unfold list_children at heq
    simp only [Except.ok.injEq, Prod.mk.injEq] at heq
    rw [← heq.1]
    omega
  | cons item rest ih =>
    intro index children total st children' total' st' heq
    unfold list_children at heq
    cases hadd : add_child opts heap recurse selfDepth (toString index) item
        (decide (0 < selfDepth) && decide (index < opts.lists)) st with
    | error er => rw [hadd] at heq; simp at heq
    | ok r =>
      obtain ⟨added, childOpt, st1⟩ := r
      rw [hadd] at heq
      dsimp only at heq
      obtain ⟨_, hcreate⟩ := add_child_spec opts heap recurse selfDepth (toString index)
        item _ st added childOpt st1 hadd
      cases childOpt with
      | none =>
        have := ih _ _ _ _ _ _ _ heq
        simp only [List.append_nil, Option.toList_none] at this
        omega
      | some c =>
        have hflag := hcreate (by simp)
        simp only [Bool.and_eq_true, decide_eq_true_eq] at hflag
        have hlt : index < opts.lists := hflag.2
        have := ih _ _ _ _ _ _ _ heq
        simp only [List.length_append, Option.toList_some, List.length_singleton] at this
        omega

/-- The queryset loop adds at most one child per (already sliced) item. -/
theorem qs_children_length (opts : Options) (heap : Heap) (recurse : Recurse)
    (selfDepth : Nat) :
    ∀ items index children st children' st',
      qs_children opts heap recurse selfDepth items index children st = .ok (children', st') →
      children'.length ≤ children.length + items.length := by
  intro items
  induction items with
  | nil =>
    intro index children st children' st' heq
    unfold qs_children at heq
    simp only [Except.ok.injEq, Prod.mk.injEq] at heq
    rw [← heq.1]
    omega
  | cons item rest ih =>
    intro index children st children' st' heq
    unfold qs_children at heq
    cases hadd : add_child opts heap recurse selfDepth (toString index) item true st with
    | error er => rw [hadd] at heq; simp at heq
    | ok r =>
      obtain ⟨added, childOpt, st1⟩ := r
      rw [hadd] at heq
      dsimp only at heq
      have := ih _ _ _ _ _ heq
      have hlen : childOpt.toList.length ≤ 1 := by
        cases childOpt <;> simp
      simp only [List.length_append, List.length_cons] at this ⊢
      omega

/-- The dict loop counts exactly the eligible entries into `_total_items`. -/
theorem dict_children_total (opts : Options) (heap : Heap) (recurse : Recurse)
    (selfDepth : Nat) :
    ∀ entries children total st children' total' st',
      dict_children opts heap recurse selfDepth entries children total st
        = .ok (children', total', st') →
      total' = total + eligibleDictCount opts heap entries := by
  intro entries
  induction entries with
  | nil =>
    intro children total st children' total' st' heq
    unfold dict_children at heq
    simp only [Except.ok.injEq, Prod.mk.injEq] at heq
    rw [← heq.2.1]
    simp [eligibleDictCount]
  | cons e rest ih =>
    intro children total st children' total' st' heq
    obtain ⟨key, value⟩ := e
    unfold dict_children at heq
    cases hadd : add_child opts heap recurse selfDepth key value
        (decide (0 < selfDepth) && decide (children.length < opts.lists)) st with
    | error er => rw [hadd] at heq; simp at heq
    | ok r =>
      obtain ⟨added, childOpt, st1⟩ := r
      rw [hadd] at heq
      dsimp only at heq
      obtain ⟨helig, _⟩ := add_child_spec opts heap recurse selfDepth key value _ st
        added childOpt st1 hadd
      have := ih _ _ _ _ _ _ heq
      rw [this]
      have hcount : eligibleDictCount opts heap ((key, value) :: rest)
          = (if isEligible opts (heap value) = true then 1 else 0)
            + eligibleDictCount opts heap rest := by
        unfold eligibleDictCount
        rw [List.filter_cons]
        by_cases he : isEligible opts (heap value) = true
        · simp [he]
          omega
        · simp [he]
      rw [hcount]
      cases he : isEligible opts (heap value) with
      | false =>
        rw [he] at helig
        simp [helig, he]
      | true =>
        rw [he] at helig
        simp [helig, he]
        omega

/-- The list/set loop counts exactly the eligible items into `_total_items`. -/
theorem list_children_total (opts : Options) (heap : Heap) (recurse : Recurse)
    (selfDepth : Nat) :
    ∀ items index children total st children' total' st',
      list_children opts heap recurse selfDepth items index children total st
        = .ok (children', total', st') →
      total' = total + eligibleCount opts heap items := by
  intro items
  induction items with
  | nil =>
    intro index children total st children' total' st' heq
    unfold list_children at heq
    simp only [Except.ok.injEq, Prod.mk.injEq] at heq
    rw [← heq.2.1]
    simp [eligibleCount]
  | cons item rest ih =>
    intro index children total st children' total' st' heq
    unfold list_children at heq
    cases hadd : add_child opts heap recurse selfDepth (toString index) item
        (decide (0 < selfDepth) && decide (index < opts.lists)) st with
    | error er => rw [hadd] at heq; simp at heq
    | ok r =>
      obtain ⟨added, childOpt, st1⟩ := r
      rw [hadd] at heq
      dsimp only at heq
      obtain ⟨helig, _⟩ := add_child_spec opts heap recurse selfDepth (toString index)
        item _ st added childOpt st1 hadd
      have := ih _ _ _ _ _ _ _ heq
      rw [this]
      have hcount : eligibleCount opts heap (item :: rest)
          = (if isEligible opts (heap item) = true then 1 else 0)
            + eligibleCount opts heap rest := by
        unfold eligibleCount
        rw [List.filter_cons]
        by_cases he : isEligible opts (heap item) = true
        · simp [he]
          omega
        · simp [he]
      rw [hcount]
      cases he : isEligible opts (heap item) with
      | false =>
        rw [he] at helig
        simp [helig, he]
      | true =>
        rw [he] at helig
        simp [helig, he]
        omega

/-- C7: for every dict, list, set and queryset node, the children actually
created never exceed the `lists` (max_items) option, while `_total_items`
reports the count of all eligible items (for a queryset: `obj.count()`, which
equals the eligible count whenever queryset rows are eligible model
instances), which may exceed the number of children created. -/
theorem C7_max_items_limit (opts : Options) (heap : Heap) (depth : Nat)
    (name : String) (obj : ObjId) (st : List ObjId) (t : Node) (st' : List ObjId)
    (heq : inspect_factory opts heap depth name obj st = .ok (t, st')) :
    (∀ entries, heap obj = .dictObj entries →
      t.children.length ≤ opts.lists ∧
      t.totalItems = Option.some (eligibleDictCount opts heap entries)) ∧
    (∀ items, heap obj = .listObj items ∨ heap obj = .setObj items →
      t.children.length ≤ opts.lists ∧
      t.totalItems = Option.some (eligibleCount opts heap items)) ∧
    (∀ items, heap obj = .querySetObj items →
      t.children.length ≤ opts.lists ∧
      t.totalItems = Option.some items.length ∧
      ((∀ v ∈ items, isEligible opts (heap v) = true) →
        items.length = eligibleCount opts heap items)) := by
  cases depth with
  | zero => simp [inspect_factory] at heq
  | succ d =>
    unfold inspect_factory inspect_dispatch at heq
    refine ⟨?_, ?_, ?_⟩
    · intro entries hdata
      rw [hdata] at heq
      dsimp only at heq
      cases hloop : dict_children opts heap
          (fun nm ob s => inspect_factory opts heap d nm ob s) d entries [] 0 st with
      | error er => rw [hloop] at heq; simp at heq
      | ok r =>
        obtain ⟨children, total, st1⟩ := r
        rw [hloop] at heq
        simp only [Except.ok.injEq, Prod.mk.injEq] at heq
        rw [← heq.1]
        constructor
        · have := dict_children_length opts heap _ d entries [] 0 st children total st1 hloop
          simpa [Node.children] using this
        · have := dict_children_total opts heap _ d entries [] 0 st children total st1 hloop
          simp [Node.totalItems, this]
    · intro items hdata
      cases hdata with
      | inl hdata =>
        rw [hdata] at heq
        dsimp only at heq
        cases hloop : list_children opts heap
            (fun nm ob s => inspect_factory opts heap d nm ob s) d items 0 [] 0 st with
        | error er => rw [hloop] at heq; simp at heq
        | ok r =>
          obtain ⟨children, total, st1⟩ := r
          rw [hloop] at heq
          simp only [Except.ok.injEq, Prod.mk.injEq] at heq
          rw [← heq.1]
          constructor
          · have := list_children_length opts heap _ d items 0 [] 0 st children total st1 hloop
            simpa [Node.children] using this
          · have := list_children_total opts heap _ d items 0 [] 0 st children total st1 hloop
            simp [Node.totalItems, this]
      | inr hdata =>
        rw [hdata] at heq
        dsimp only at heq
        cases hloop : list_children opts heap
            (fun nm ob s => inspect_factory opts heap d nm ob s) d items 0 [] 0 st with
        | error er => rw [hloop] at heq; simp at heq
        | ok r =>
          obtain ⟨children, total, st1⟩ := r
          rw [hloop] at heq
          simp only [Except.ok.injEq, Prod.mk.injEq] at heq
          rw [← heq.1]
          constructor
          · have := list_children_length opts heap _ d items 0 [] 0 st children total st1 hloop
            simpa [Node.children] using this
          · have := list_children_total opts heap _ d items 0 [] 0 st children total st1 hloop
            simp [Node.totalItems, this]
    · intro items hdata
      rw [hdata] at heq
      dsimp only at heq
      have hfilter : (∀ v ∈ items, isEligible opts (heap v) = true) →
          items.length = eligibleCount opts heap items := by
        intro hall
        unfold eligibleCount
        rw [List.filter_eq_self.mpr hall]
      by_cases hg : (0 < items.length && 0 < d) = true
      · rw [if_pos hg] at heq
        cases hloop : qs_children opts heap
            (fun nm ob s => inspect_factory opts heap d nm ob s) d
            (items.take opts.lists) 0 [] st with
        | error er => rw [hloop] at heq; simp at heq
        | ok r =>
          obtain ⟨children, st1⟩ := r
          rw [hloop] at heq
          simp only [Except.ok.injEq, Prod.mk.injEq] at heq
          rw [← heq.1]
          refine ⟨?_, by simp [Node.totalItems], hfilter⟩
          have := qs_children_length opts heap _ d (items.take opts.lists) 0 [] st
            children st1 hloop
          have htake : (items.take opts.lists).length ≤ opts.lists := by
            simp [List.length_take]
          simp only [Node.children]
          simp only [List.length_nil, Nat.zero_add] at this
          omega
      · rw [if_neg hg] at heq
        simp only [Except.ok.injEq, Prod.mk.injEq] at heq
        rw [← heq.1]
        exact ⟨by simp [Node.children], by simp [Node.totalItems], hfilter⟩

/-- Witness for C7 on `heap1` (a list of seven eligible members, lists=5):
five children created, seven reported. -/
theorem C7_max_items_limit_witness :
    inspect_factory opts0 heap1 (opts0.depth + 1) "Explore" 0 [] = .ok (c7_tree, c7_state) ∧
    heap1 0 = .listObj [1, 2, 3, 4, 5, 6, 7] ∧
    c7_tree.children.length ≤ opts0.lists ∧
    c7_tree.totalItems = Option.some (eligibleCount opts0 heap1 [1, 2, 3, 4, 5, 6, 7]) :=
  ⟨rfl, rfl,
   ((C7_max_items_limit opts0 heap1 (opts0.depth + 1) "Explore" 0 [] c7_tree c7_state
       rfl).2.1 [1, 2, 3, 4, 5, 6, 7] (Or.inl rfl)).1,
   ((C7_max_items_limit opts0 heap1 (opts0.depth + 1) "Explore" 0 [] c7_tree c7_state
       rfl).2.1 [1, 2, 3, 4, 5, 6, 7] (Or.inl rfl)).2⟩

/-! ## Inspector theorems: claim C6 (duplicate detection) -/

/-- `countFullList` distributes over append. -/
theorem countFullList_append (x : ObjId) (a b : List Node) :
    countFullList x (a ++ b) = countFullList x a + countFullList x b := by
  induction a with
  | nil => simp [countFullList]
  | cons c rest ih =>
    simp only [List.cons_append, List.append_eq, countFullList, ih]
    omega

/-- `countExpandedList` distributes over append. -/
theorem countExpandedList_append (x : ObjId) (a b : List Node) :
    countExpandedList x (a ++ b) = countExpandedList x a + countExpandedList x b := by
  induction a with
  | nil => simp [countExpandedList]
  | cons c rest ih =>
    simp only [List.cons_append, List.append_eq, countExpandedList, ih]
    omega

/-- `dupIdsList` distributes over append. -/
theorem dupIdsList_append (a b : List Node) :
    dupIdsList (a ++ b) = dupIdsList a ++ dupIdsList b := by
  induction a with
  | nil => simp [dupIdsList]
  | cons c rest ih =>
    simp only [List.cons_append, List.append_eq, dupIdsList, ih]
    rw [List.append_assoc]

/-- `dupsChildlessList` distributes over append. -/
theorem dupsChildlessList_append (a b : List Node) :
    dupsChildlessList (a ++ b) = (dupsChildlessList a && dupsChildlessList b) := by
  induction a with
  | nil => simp [dupsChildlessList]
  | cons c rest ih =>
    simp only [List.cons_append, List.append_eq, dupsChildlessList, ih]
    rw [Bool.and_assoc]

/-- A `True` answer from `been_seen_before` leaves the state unchanged and
certifies a tracked, already-seen id. -/
theorem been_seen_true (heap : Heap) (st : List ObjId) (value : ObjId)
    (st1 : List ObjId) (h : been_seen_before heap st value = (true, st1)) :
    st1 = st ∧ value ∈ st ∧ isSimpleOrNone (heap value) = false := by
  unfold been_seen_before at h
  by_cases hs : isSimpleOrNone (heap value) = true
  · rw [if_pos hs] at h
    simp at h
  · rw [if_neg hs] at h
    by_cases hm : value ∈ st
    · rw [if_pos hm] at h
      simp only [Prod.mk.injEq] at h
      exact ⟨h.2.symm, hm, by simpa using hs⟩
    · rw [if_neg hm] at h
      simp at h

/-- A `False` answer from `been_seen_before`: either the value is untracked
(simple) and the state is unchanged, or it is newly recorded. -/
theorem been_seen_false (heap : Heap) (st : List ObjId) (value : ObjId)
    (st1 : List ObjId) (h : been_seen_before heap st value = (false, st1)) :
    (isSimpleOrNone (heap value) = true ∧ st1 = st) ∨
    (isSimpleOrNone (heap value) = false ∧ value ∉ st ∧ st1 = value :: st) := by
  unfold been_seen_before at h
  by_cases hs : isSimpleOrNone (heap value) = true
  · rw [if_pos hs] at h
    simp only [Prod.mk.injEq] at h
    exact Or.inl ⟨hs, h.2.symm⟩
  · rw [if_neg hs] at h
    by_cases hm : value ∈ st
    · rw [if_pos hm] at h
      simp at h
    · rw [if_neg hm] at h
      simp only [Prod.mk.injEq] at h
      exact Or.inr ⟨by simpa using hs, hm, h.2.symm⟩

/-- The empty run of child additions. -/
theorem C6Loop_nil (s : List ObjId) : C6Loop s [] s := by
  refine ⟨fun x hx => hx, ?_, ?_, ?_, ?_, rfl⟩
  · intro x
    simp [countFullList]
  · intro x hx
    simp [countFullList] at hx
  · intro x hx
    exact Or.inl hx
  · intro x hx
    simp [dupIdsList] at hx

/-- Two successive runs of child additions compose. -/
theorem C6Loop_comp (s s1 s2 : List ObjId) (d1 d2 : List Node)
    (h1 : C6Loop s d1 s1) (h2 : C6Loop s1 d2 s2) : C6Loop s (d1 ++ d2) s2 := by
  obtain ⟨mono1, bound1, inState1, covered1, dups1, leaf1⟩ := h1
  obtain ⟨mono2, bound2, inState2, covered2, dups2, leaf2⟩ := h2
  refine ⟨fun x hx => mono2 x (mono1 x hx), ?_, ?_, ?_, ?_, ?_⟩
  · intro x
    rw [countFullList_append]
    by_cases hxs : x ∈ s
    · have hb1 := bound1 x
      have hb2 := bound2 x
      rw [if_pos hxs] at hb1
      rw [if_pos (mono1 x hxs)] at hb2
      simp only [if_pos hxs]
      omega
    · have hb1 := bound1 x
      rw [if_neg hxs] at hb1
      simp only [if_neg hxs]
      by_cases hc1 : 1 ≤ countFullList x d1
      · have hx1 : x ∈ s1 := inState1 x hc1
        have hb2 := bound2 x
        rw [if_pos hx1] at hb2
        omega
      · have hb2 := bound2 x
        have : (if x ∈ s1 then 0 else 1) ≤ 1 := by
          by_cases h : x ∈ s1 <;> simp [h]
        omega
  · intro x hx
    rw [countFullList_append] at hx
    by_cases hc1 : 1 ≤ countFullList x d1
    · exact mono2 x (inState1 x hc1)
    · exact inState2 x (by omega)
  · intro x hx
    rcases covered2 x hx with h | h
    · rcases covered1 x h with h' | h'
      · exact Or.inl h'
      · refine Or.inr ?_
        rw [countExpandedList_append]
        omega
    · refine Or.inr ?_
      rw [countExpandedList_append]
      omega
  · intro x hx
    rw [dupIdsList_append] at hx
    rcases List.mem_append.mp hx with h | h
    · rcases dups1 x h with h' | h'
      · exact Or.inl h'
      · refine Or.inr ?_
        rw [countExpandedList_append]
        omega
    · rcases dups2 x h with h' | h'
      · rcases covered1 x h' with h'' | h''
        · exact Or.inl h''
        · refine Or.inr ?_
          rw [countExpandedList_append]
          omega
      · refine Or.inr ?_
        rw [countExpandedList_append]
        omega
  · rw [dupsChildlessList_append, leaf1, leaf2]
    rfl

theorem countFullList_singleton (x : ObjId) (c : Node) :
    countFullList x [c] = countFull x c := by
  simp [countFullList]

theorem countExpandedList_singleton (x : ObjId) (c : Node) :
    countExpandedList x [c] = countExpanded x c := by
  simp [countExpandedList]

theorem dupIdsList_singleton (c : Node) : dupIdsList [c] = dupIds c := by
  simp [dupIdsList]

theorem dupsChildlessList_singleton (c : Node) :
    dupsChildlessList [c] = dupsChildless c := by
  simp [dupsChildlessList]

/-- Any whitelisted-simple object dispatches to a value leaf, not a full
node. -/
theorem fullData_of_simple (d : ObjData) (h : isSimpleOrNone d = true) :
    fullData d = false := by
  cases d <;> simp [isSimpleOrNone] at h <;> rfl

/-- One `_add_child` call satisfies the child-run invariant: a skipped or
merely counted item adds nothing; a seen value adds a childless duplicate
marker (contributing no expansion); a new value is expanded once — into a
full node, or a value leaf for simple-dispatched objects — with tracked
values recorded in `_processed` first. -/
theorem add_child_c6 (opts : Options) (heap : Heap) (recurse : Recurse)
    (selfDepth : Nat) (name : String) (value : ObjId) (create_child : Bool)
    (st : List ObjId) (added : Bool) (childOpt : Option Node) (st' : List ObjId)
    (hrec : create_child = true → C6Rec heap recurse)
    (heq : add_child opts heap recurse selfDepth name value create_child st
      = .ok (added, childOpt, st')) :
    C6Loop st childOpt.toList st' := by
  unfold add_child at heq
  by_cases h1 : (!opts.methods && isMethodLike (heap value)) = true
  · rw [if_pos h1] at heq
    simp only [Except.ok.injEq, Prod.mk.injEq] at heq
    rw [← heq.2.1, ← heq.2.2]
    exact C6Loop_nil st
  · rw [if_neg h1] at heq
    by_cases h2 : (!opts.none && isNoneData (heap value)) = true
    · rw [if_pos h2] at heq
      simp only [Except.ok.injEq, Prod.mk.injEq] at heq
      rw [← heq.2.1, ← heq.2.2]
      exact C6Loop_nil st
    · rw [if_neg h2] at heq
      by_cases h3 : (!create_child) = true
      · rw [if_pos h3] at heq
        simp only [Except.ok.injEq, Prod.mk.injEq] at heq
        rw [← heq.2.1, ← heq.2.2]
        exact C6Loop_nil st
      · rw [if_neg h3] at heq
        have hc : create_child = true := by
          cases create_child
          · simp at h3
          · rfl
        cases hseen : been_seen_before heap st value with
        | mk seen st1 =>
          rw [hseen] at heq
          cases seen with
          | true =>
            dsimp only at heq
            simp only [Except.ok.injEq, Prod.mk.injEq] at heq
            obtain ⟨hst, hmem, _hns⟩ := been_seen_true heap st value st1 hseen
            rw [← heq.2.1, ← heq.2.2, hst]
            have hdup0 : ∀ x,
                countFull x (Node.mk .duplicateNode name value selfDepth [] Option.none)
                  = 0 := by
              intro x
              simp [countFull, countFullList]
            refine ⟨fun x hx => hx, ?_, ?_, ?_, ?_, ?_⟩
            · intro x
              rw [Option.toList_some, countFullList_singleton, hdup0]
              exact Nat.zero_le _
            · intro x hx
              rw [Option.toList_some, countFullList_singleton, hdup0] at hx
              omega
            · intro x hx
              exact Or.inl hx
            · intro x hx
              rw [Option.toList_some, dupIdsList_singleton] at hx
              simp [dupIds, dupIdsList] at hx
              subst hx
              exact Or.inl hmem
            · rw [Option.toList_some, dupsChildlessList_singleton]
              simp [dupsChildless, dupsChildlessList]
          | false =>
            dsimp only at heq
            cases hr : recurse name value st1 with
            | error e => rw [hr] at heq; simp at heq
            | ok pr =>
              obtain ⟨child, st2⟩ := pr
              rw [hr] at heq
              simp only [Except.ok.injEq, Prod.mk.injEq] at heq
              have fact := hrec hc name value st1 child st2 hr
              rw [← heq.2.1, ← heq.2.2]
              rcases been_seen_false heap st value st1 hseen with
                ⟨hsimple, hst⟩ | ⟨_hns, hnotmem, hst⟩
              · subst hst
                have hfd : fullData (heap value) = false :=
                  fullData_of_simple _ hsimple
                obtain ⟨hzero, hdupnil⟩ := fact.simpleLeaf hfd
                refine ⟨fact.mono, ?_, ?_, ?_, ?_, ?_⟩
                · intro x
                  rw [Option.toList_some, countFullList_singleton, hzero]
                  exact Nat.zero_le _
                · intro x hx
                  rw [Option.toList_some, countFullList_singleton, hzero] at hx
                  omega
                · intro x hx
                  rcases fact.stateCovered x hx with hmem | hcnt
                  · exact Or.inl hmem
                  · refine Or.inr ?_
                    rw [Option.toList_some, countExpandedList_singleton]
                    exact hcnt
                · intro x hx
                  rw [Option.toList_some, dupIdsList_singleton, hdupnil] at hx
                  simp at hx
                · rw [Option.toList_some, dupsChildlessList_singleton]
                  exact fact.dupsLeaf
              · subst hst
                refine ⟨fun x hx => fact.mono x (List.mem_cons_of_mem _ hx), ?_, ?_, ?_, ?_, ?_⟩
                · intro x
                  rw [Option.toList_some, countFullList_singleton]
                  have hb := fact.bound x
                  have h4 : (if x = value ∧ fullData (heap value) = true then 1 else 0)
                      ≤ if x = value then 1 else 0 := by
                    by_cases hxf : x = value ∧ fullData (heap value) = true
                    · rw [if_pos hxf, if_pos hxf.1]
                    · rw [if_neg hxf]
                      exact Nat.zero_le _
                  by_cases hxv : x = value
                  · subst hxv
                    rw [if_pos (List.mem_cons_self _ _)] at hb
                    rw [if_pos rfl] at h4
                    rw [if_neg hnotmem]
                    omega
                  · rw [if_neg hxv] at h4
                    by_cases hxst : x ∈ st
                    · rw [if_pos (List.mem_cons_of_mem _ hxst)] at hb
                      rw [if_pos hxst]
                      omega
                    · have hx1 : x ∉ value :: st := by
                        intro hcon
                        rcases List.mem_cons.mp hcon with h | h
                        · exact hxv h
                        · exact hxst h
                      rw [if_neg hx1] at hb
                      rw [if_neg hxst]
                      omega
                · intro x hx
                  rw [Option.toList_some, countFullList_singleton] at hx
                  by_cases hxv : x = value
                  · subst hxv
                    exact fact.mono _ (List.mem_cons_self _ _)
                  · exact fact.inState x hx hxv
                · intro x hx
                  rcases fact.stateCovered x hx with hmem | hcnt
                  · rcases List.mem_cons.mp hmem with hxeq | hxst
                    · subst hxeq
                      refine Or.inr ?_
                      rw [Option.toList_some, countExpandedList_singleton]
                      exact fact.expandedRoot
                    · exact Or.inl hxst
                  · refine Or.inr ?_
                    rw [Option.toList_some, countExpandedList_singleton]
                    exact hcnt
                · intro x hx
                  rw [Option.toList_some, dupIdsList_singleton] at hx
                  rcases fact.dupsCovered x hx with hmem | hcnt
                  · rcases List.mem_cons.mp hmem with hxeq | hxst
                    · subst hxeq
                      refine Or.inr ?_
                      rw [Option.toList_some, countExpandedList_singleton]
                      exact fact.expandedRoot
                    · exact Or.inl hxst
                  · refine Or.inr ?_
                    rw [Option.toList_some, countExpandedList_singleton]
                    exact hcnt
                · rw [Option.toList_some, dupsChildlessList_singleton]
                  exact fact.dupsLeaf

/-- The dict loop appends a child run satisfying the invariant. -/
theorem dict_children_c6 (opts : Options) (heap : Heap) (recurse : Recurse)
    (selfDepth : Nat) (hrec : 0 < selfDepth → C6Rec heap recurse) :
    ∀ entries children total st children' total' st',
      dict_children opts heap recurse selfDepth entries children total st
        = .ok (children', total', st') →
      ∃ delta, children' = children ++ delta ∧ C6Loop st delta st' := by
  intro entries
  induction entries with
  | nil =>
    intro children total st children' total' st' heq
    unfold dict_children at heq
    simp only [Except.ok.injEq, Prod.mk.injEq] at heq
    exact ⟨[], by rw [← heq.1]; simp, by rw [← heq.2.2]; exact C6Loop_nil st⟩
  | cons e rest ih =>
    intro children total st children' total' st' heq
    obtain ⟨key, value⟩ := e
    unfold dict_children at heq
    cases hadd : add_child opts heap recurse selfDepth key value
        (decide (0 < selfDepth) && decide (children.length < opts.lists)) st with
    | error er => rw [hadd] at heq; simp at heq
    | ok r =>
      obtain ⟨added, childOpt, st1⟩ := r
      rw [hadd] at heq
      dsimp only at heq
      have hone := add_child_c6 opts heap recurse selfDepth key value _ st added childOpt st1
        (fun hf => by
          simp only [Bool.and_eq_true, decide_eq_true_eq] at hf
          exact hrec hf.1) hadd
      obtain ⟨delta1, hch, hloop1⟩ := ih _ _ _ _ _ _ heq
      refine ⟨childOpt.toList ++ delta1, ?_, C6Loop_comp st st1 st' _ _ hone hloop1⟩
      rw [hch, List.append_assoc]

/-- The list/set loop appends a child run satisfying the invariant. -/
theorem list_children_c6 (opts : Options) (heap : Heap) (recurse : Recurse)
    (selfDepth : Nat) (hrec : 0 < selfDepth → C6Rec heap recurse) :
    ∀ items index children total st children' total' st',
      list_children opts heap recurse selfDepth items index children total st
        = .ok (children', total', st') →
      ∃ delta, children' = children ++ delta ∧ C6Loop st delta st' := by
  intro items
  induction items with
  | nil =>
    intro index children total st children' total' st' heq
    unfold list_children at heq
    simp only [Except.ok.injEq, Prod.mk.injEq] at heq
    exact ⟨[], by rw [← heq.1]; simp, by rw [← heq.2.2]; exact C6Loop_nil st⟩
  | cons item rest ih =>
    intro index children total st children' total' st' heq
    unfold list_children at heq
    cases hadd : add_child opts heap recurse selfDepth (toString index) item
        (decide (0 < selfDepth) && decide (index < opts.lists)) st with
    | error er => rw [hadd] at heq; simp at heq
    | ok r =>
      obtain ⟨added, childOpt, st1⟩ := r
      rw [hadd] at heq
      dsimp only at heq
      have hone := add_child_c6 opts heap recurse selfDepth (toString index) item _ st
        added childOpt st1
        (fun hf => by
          simp only [Bool.and_eq_true, decide_eq_true_eq] at hf
          exact hrec hf.1) hadd
      obtain ⟨delta1, hch, hloop1⟩ := ih _ _ _ _ _ _ _ heq
      refine ⟨childOpt.toList ++ delta1, ?_, C6Loop_comp st st1 st' _ _ hone hloop1⟩
      rw [hch, List.append_assoc]

/-- The queryset loop appends a child run satisfying the invariant. -/
theorem qs_children_c6 (opts : Options) (heap : Heap) (recurse : Recurse)
    (selfDepth : Nat) (hrec : C6Rec heap recurse) :
    ∀ items index children st children' st',
      qs_children opts heap recurse selfDepth items index children st = .ok (children', st') →
      ∃ delta, children' = children ++ delta ∧ C6Loop st delta st' := by
  intro items
  induction items with
  | nil =>
    intro index children st children' st' heq
    unfold qs_children at heq
    simp only [Except.ok.injEq, Prod.mk.injEq] at heq
    exact ⟨[], by rw [← heq.1]; simp, by rw [← heq.2]; exact C6Loop_nil st⟩
  | cons item rest ih =>
    intro index children st children' st' heq
    unfold qs_children at heq
    cases hadd : add_child opts heap recurse selfDepth (toString index) item true st with
    | error er => rw [hadd] at heq; simp at heq
    | ok r =>
      obtain ⟨added, childOpt, st1⟩ := r
      rw [hadd] at heq
      dsimp only at heq
      have hone := add_child_c6 opts heap recurse selfDepth (toString index) item true st
        added childOpt st1 (fun _ => hrec) hadd
      obtain ⟨delta1, hch, hloop1⟩ := ih _ _ _ _ _ heq
      refine ⟨childOpt.toList ++ delta1, ?_, C6Loop_comp st st1 st' _ _ hone hloop1⟩
      rw [hch, List.append_assoc]

/-- The class loop appends a child run satisfying the invariant. -/
theorem class_children_c6 (opts : Options) (heap : Heap) (recurse : Recurse)
    (selfDepth : Nat) (hrec : 0 < selfDepth → C6Rec heap recurse) :
    ∀ attrs children total st children' total' st',
      class_children opts heap recurse selfDepth attrs children total st
        = .ok (children', total', st') →
      ∃ delta, children' = children ++ delta ∧ C6Loop st delta st' := by
  intro attrs
  induction attrs with
  | nil =>
    intro children total st children' total' st' heq
    unfold class_children at heq
    simp only [Except.ok.injEq, Prod.mk.injEq] at heq
    exact ⟨[], by rw [← heq.1]; simp, by rw [← heq.2.2]; exact C6Loop_nil st⟩
  | cons attr rest ih =>
    intro children total st children' total' st' heq
    unfold class_children at heq
    by_cases hp : (attr.name.startsWith "_" && !opts.privates) = true
    · rw [if_pos hp] at heq
      exact ih _ _ _ _ _ _ heq
    · rw [if_neg hp] at heq
      by_cases hs : attr.skipKind = true
      · rw [if_pos hs] at heq
        exact ih _ _ _ _ _ _ heq
      · rw [if_neg hs] at heq
        by_cases hdpos : 0 < selfDepth
        · rw [if_pos hdpos] at heq
          cases hadd : add_child opts heap recurse selfDepth attr.name attr.ref true st with
          | error er => rw [hadd] at heq; simp at heq
          | ok r =>
            obtain ⟨added, childOpt, st1⟩ := r
            rw [hadd] at heq
            dsimp only at heq
            have hone := add_child_c6 opts heap recurse selfDepth attr.name attr.ref true st
              added childOpt st1 (fun _ => hrec hdpos) hadd
            obtain ⟨delta1, hch, hloop1⟩ := ih _ _ _ _ _ _ heq
            refine ⟨childOpt.toList ++ delta1, ?_, C6Loop_comp st st1 st' _ _ hone hloop1⟩
            rw [hch, List.append_assoc]
        · rw [if_neg hdpos] at heq
          exact ih _ _ _ _ _ _ heq

/-- A full node (any non-simple, non-duplicate kind) built over a child run
satisfies the per-call fact: the root itself accounts for the one extra full
expansion of its own object. -/
theorem c6fact_of_loop (heap : Heap) (ob : ObjId) (st : List ObjId) (delta : List Node)
    (st' : List ObjId) (K : NodeKind) (hK1 : K ≠ .simpleNode) (hK2 : K ≠ .duplicateNode)
    (hfd : fullData (heap ob) = true) (hloop : C6Loop st delta st')
    (nm : String) (d : Nat) (totalOpt : Option Nat) :
    C6Fact heap ob st (Node.mk K nm ob d delta totalOpt) st' := by
  have hcnt : ∀ x, countFull x (Node.mk K nm ob d delta totalOpt)
      = (if ob = x then 1 else 0) + countFullList x delta := by
    intro x
    simp only [countFull]
    congr 1
    by_cases hx : ob = x
    · rw [if_pos ⟨⟨hK1, hK2⟩, hx⟩, if_pos hx]
    · rw [if_neg (fun h => hx h.2), if_neg hx]
  have hcntE : ∀ x, countExpanded x (Node.mk K nm ob d delta totalOpt)
      = (if ob = x then 1 else 0) + countExpandedList x delta := by
    intro x
    simp only [countExpanded]
    congr 1
    by_cases hx : ob = x
    · rw [if_pos ⟨hK2, hx⟩, if_pos hx]
    · rw [if_neg (fun h => hx h.2), if_neg hx]
  have hdup : dupIds (Node.mk K nm ob d delta totalOpt) = dupIdsList delta := by
    simp [dupIds, hK2]
  refine ⟨hloop.mono, ?_, ?_, ?_, ?_, ?_, ?_, ?_⟩
  · intro x
    rw [hcnt]
    have hb := hloop.bound x
    by_cases hx : x = ob
    · subst hx
      rw [if_pos (show x = x from rfl)]
      rw [if_pos (show x = x ∧ fullData (heap x) = true from ⟨rfl, hfd⟩)]
      omega
    · rw [if_neg (show ¬(ob = x) from fun h => hx h.symm)]
      rw [if_neg (show ¬(x = ob ∧ fullData (heap ob) = true) from fun h => hx h.1)]
      omega
  · intro x h1 hxo
    rw [hcnt, if_neg (show ¬(ob = x) from fun h => hxo h.symm)] at h1
    exact hloop.inState x (by omega)
  · intro x hx
    rcases hloop.stateCovered x hx with h | h
    · exact Or.inl h
    · refine Or.inr ?_
      rw [hcntE]
      omega
  · intro x hx
    rw [hdup] at hx
    rcases hloop.dupsCovered x hx with h | h
    · exact Or.inl h
    · refine Or.inr ?_
      rw [hcntE]
      omega
  · simp [dupsChildless, hK2, hloop.dupsLeaf]
  · rw [hcntE, if_pos rfl]
    omega
  · intro h
    rw [h] at hfd
    simp at hfd

/-- A simple-dispatched leaf (`None`, the isinstance whitelist, or the name
whitelist) satisfies the per-call fact: it is an expansion of its object but
not a full one. -/
theorem c6fact_leaf_simple (heap : Heap) (ob : ObjId) (st : List ObjId)
    (nm : String) (d : Nat) (_hfd : fullData (heap ob) = false) :
    C6Fact heap ob st (Node.mk .simpleNode nm ob d [] Option.none) st := by
  have h0 : ∀ x, countFull x (Node.mk .simpleNode nm ob d [] Option.none) = 0 := by
    intro x
    simp [countFull, countFullList]
  have hE : 1 ≤ countExpanded ob (Node.mk .simpleNode nm ob d [] Option.none) := by
    simp [countExpanded, countExpandedList]
  refine ⟨fun x hx => hx, ?_, ?_, ?_, ?_, ?_, hE, ?_⟩
  · intro x
    rw [h0]
    exact Nat.zero_le _
  · intro x h1
    rw [h0] at h1
    omega
  · intro x hx
    exact Or.inl hx
  · intro x hx
    simp [dupIds, dupIdsList] at hx
  · simp [dupsChildless, dupsChildlessList]
  · intro _
    exact ⟨h0, by simp [dupIds, dupIdsList]⟩

/-- A successful dispatch call satisfies the per-call fact. -/
theorem inspect_dispatch_c6 (opts : Options) (heap : Heap) (recurse : Recurse)
    (d : Nat) (nm : String) (ob : ObjId) (st : List ObjId) (t : Node) (st' : List ObjId)
    (hrec : 0 < d → C6Rec heap recurse)
    (heq : inspect_dispatch opts heap recurse d nm ob st = .ok (t, st')) :
    C6Fact heap ob st t st' := by
  unfold inspect_dispatch at heq
  cases hdata : heap ob <;> rw [hdata] at heq <;> dsimp only at heq
  case noneObj =>
    simp only [Except.ok.injEq, Prod.mk.injEq] at heq
    rw [← heq.1, ← heq.2]
    exact c6fact_leaf_simple heap ob st nm d (by rw [hdata]; rfl)
  case simple v =>
    simp only [Except.ok.injEq, Prod.mk.injEq] at heq
    rw [← heq.1, ← heq.2]
    exact c6fact_leaf_simple heap ob st nm d (by rw [hdata]; rfl)
  case proxyObj v =>
    simp only [Except.ok.injEq, Prod.mk.injEq] at heq
    rw [← heq.1, ← heq.2]
    exact c6fact_leaf_simple heap ob st nm d (by rw [hdata]; rfl)
  case methodObj ps =>
    simp only [Except.ok.injEq, Prod.mk.injEq] at heq
    rw [← heq.1, ← heq.2]
    exact c6fact_of_loop heap ob st [] st .methodNode (by decide) (by decide)
      (by rw [hdata]; rfl) (C6Loop_nil st) nm d Option.none
  case partialApp v =>
    simp only [Except.ok.injEq, Prod.mk.injEq] at heq
    rw [← heq.1, ← heq.2]
    exact c6fact_of_loop heap ob st [] st .partialNode (by decide) (by decide)
      (by rw [hdata]; rfl) (C6Loop_nil st) nm d Option.none
  case dictObj entries =>
    cases hloop : dict_children opts heap recurse d entries [] 0 st with
    | error er => rw [hloop] at heq; simp at heq
    | ok r =>
      obtain ⟨children, total, st1⟩ := r
      rw [hloop] at heq
      simp only [Except.ok.injEq, Prod.mk.injEq] at heq
      obtain ⟨delta, hch, hl⟩ := dict_children_c6 opts heap recurse d hrec entries [] 0 st
        children total st1 hloop
      rw [List.nil_append] at hch
      rw [← heq.1, ← heq.2, hch]
      exact c6fact_of_loop heap ob st delta st1 .dictNode (by decide) (by decide)
        (by rw [hdata]; rfl) hl nm d (Option.some total)
  case setObj items =>
    cases hloop : list_children opts heap recurse d items 0 [] 0 st with
    | error er => rw [hloop] at heq; simp at heq
    | ok r =>
      obtain ⟨children, total, st1⟩ := r
      rw [hloop] at heq
      simp only [Except.ok.injEq, Prod.mk.injEq] at heq
      obtain ⟨delta, hch, hl⟩ := list_children_c6 opts heap recurse d hrec items 0 [] 0 st
        children total st1 hloop
      rw [List.nil_append] at hch
      rw [← heq.1, ← heq.2, hch]
      exact c6fact_of_loop heap ob st delta st1 .setNode (by decide) (by decide)
        (by rw [hdata]; rfl) hl nm d (Option.some total)
  case listObj items =>
    cases hloop : list_children opts heap recurse d items 0 [] 0 st with
    | error er => rw [hloop] at heq; simp at heq
    | ok r =>
      obtain ⟨children, total, st1⟩ := r
      rw [hloop] at heq
      simp only [Except.ok.injEq, Prod.mk.injEq] at heq
      obtain ⟨delta, hch, hl⟩ := list_children_c6 opts heap recurse d hrec items 0 [] 0 st
        children total st1 hloop
      rw [List.nil_append] at hch
      rw [← heq.1, ← heq.2, hch]
      exact c6fact_of_loop heap ob st delta st1 .listNode (by decide) (by decide)
        (by rw [hdata]; rfl) hl nm d (Option.some total)
  case querySetObj items =>
    by_cases hg : (0 < items.length && 0 < d) = true
    · rw [if_pos hg] at heq
      have hd : 0 < d := by
        simp only [Bool.and_eq_true, decide_eq_true_eq] at hg
        exact hg.2
      cases hloop : qs_children opts heap recurse d (items.take opts.lists) 0 [] st with
      | error er => rw [hloop] at heq; simp at heq
      | ok r =>
        obtain ⟨children, st1⟩ := r
        rw [hloop] at heq
        simp only [Except.ok.injEq, Prod.mk.injEq] at heq
        obtain ⟨delta, hch, hl⟩ := qs_children_c6 opts heap recurse d (hrec hd)
          (items.take opts.lists) 0 [] st children st1 hloop
        rw [List.nil_append] at hch
        rw [← heq.1, ← heq.2, hch]
        exact c6fact_of_loop heap ob st delta st1 .querySetNode (by decide) (by decide)
          (by rw [hdata]; rfl) hl nm d (Option.some items.length)
    · rw [if_neg hg] at heq
      simp only [Except.ok.injEq, Prod.mk.injEq] at heq
      rw [← heq.1, ← heq.2]
      exact c6fact_of_loop heap ob st [] st .querySetNode (by decide) (by decide)
        (by rw [hdata]; rfl) (C6Loop_nil st) nm d (Option.some items.length)
  case classObj attrs =>
    cases hloop : class_children opts heap recurse d attrs [] 0 st with
    | error er => rw [hloop] at heq; simp at heq
    | ok r =>
      obtain ⟨children, total, st1⟩ := r
      rw [hloop] at heq
      simp only [Except.ok.injEq, Prod.mk.injEq] at heq
      obtain ⟨delta, hch, hl⟩ := class_children_c6 opts heap recurse d hrec attrs [] 0 st
        children total st1 hloop
      rw [List.nil_append] at hch
      rw [← heq.1, ← heq.2, hch]
      exact c6fact_of_loop heap ob st delta st1 .classNode (by decide) (by decide)
        (by rw [hdata]; rfl) hl nm d (Option.some total)

/-- Every successful factory call satisfies the per-call fact. -/
theorem inspect_factory_c6 (opts : Options) (heap : Heap) :
    ∀ d nm ob st t st',
      inspect_factory opts heap (d + 1) nm ob st = .ok (t, st') →
      C6Fact heap ob st t st' := by
  intro d
  induction d with
  | zero =>
    intro nm ob st t st' heq
    exact inspect_dispatch_c6 opts heap _ 0 nm ob st t st'
      (fun h => absurd h (by omega)) heq
  | succ d ih =>
    intro nm ob st t st' heq
    exact inspect_dispatch_c6 opts heap _ (d + 1) nm ob st t st'
      (fun _ nm2 ob2 s t2 s2 h2 => ih nm2 ob2 s t2 s2 h2) heq

/-- C6 counterexample: on the cyclic graph where the root dict (object 0)
contains itself, object 0 — a non-simple object — is expanded into a FULL
node twice within one inspection, because the manager never records the root
in `_processed` (only `_add_child` calls `been_seen_before`).  This falsifies
"every non-simple object is expanded into a full node at most once". -/
theorem C6_root_expanded_twice_counterexample : c6_probe = 2 ∧ ¬(2 ≤ 1) :=
  ⟨rfl, by omega⟩

/-- C6 (amended): within one inspection every tracked object other than the
ROOT object is expanded into a full node at most once (the root may be
expanded once more when reachable from itself, since the manager does not
mark it as seen); every duplicate marker carries no children of its own, and
the id its link refers to (the id of its own object) is the id of an
expansion node already present in the tree — a full node or, for objects the
name whitelist dispatches to `InspectSimpleType` (`__proxy__`), that
simple-type node. -/
theorem C6_duplicates_at_most_once (opts : Options) (heap : Heap) (name : String)
    (obj : ObjId) (t : Node) (st' : List ObjId)
    (heq : inspection_build opts heap name obj = .ok (t, st')) :
    (∀ x, countFull x t ≤ if x = obj then 2 else 1) ∧
    dupsChildless t = true ∧
    (∀ x ∈ dupIds t, 1 ≤ countExpanded x t) := by
  unfold inspection_build at heq
  have fact := inspect_factory_c6 opts heap opts.depth name obj [] t st' heq
  refine ⟨?_, fact.dupsLeaf, ?_⟩
  · intro x
    have hb := fact.bound x
    rw [if_neg (List.not_mem_nil x)] at hb
    by_cases hx : x = obj
    · subst hx
      rw [if_pos rfl]
      by_cases hfd : fullData (heap x) = true
      · rw [if_pos ⟨rfl, hfd⟩] at hb
        omega
      · rw [if_neg (fun h => hfd h.2)] at hb
        omega
    · rw [if_neg hx]
      rw [if_neg (fun h => hx h.1)] at hb
      omega
  · intro x hx
    rcases fact.dupsCovered x hx with h | h
    · exact absurd h (List.not_mem_nil x)
    · exact h

/-- The tracked-but-simple (`__proxy__`) case on `heap2`: the second
encounter of object 1 yields a duplicate marker, and object 1 has NO full
expansion (`countFull 1 = 0`) but exactly one simple-type expansion — so a
duplicate link may resolve to an `InspectSimpleType` node rather than a full
node, which is why the amended link property is stated with
`countExpanded`. -/
theorem proxy_duplicate_demo : proxy_probe = (0, 1, true) := rfl

/-- Witness for the amended C6 on the cyclic `heap0` inspection. -/
theorem C6_duplicates_at_most_once_witness :
    inspection_build opts0 heap0 "Explore" 0 = .ok (c5_tree, c5_state) ∧
    (∀ x, countFull x c5_tree ≤ if x = 0 then 2 else 1) ∧
    dupsChildless c5_tree = true :=
  ⟨rfl,
   (C6_duplicates_at_most_once opts0 heap0 "Explore" 0 c5_tree c5_state rfl).1,
   (C6_duplicates_at_most_once opts0 heap0 "Explore" 0 c5_tree c5_state rfl).2.1⟩

end TemplatePro
